import Mathlib

/-!
Verification of the works-catalogue logic of the pau-reig-art site.

The definitions below are a shallow embedding of the catalogue page
(`buildWorks`, the timeline / calendar bucketing, the detail-drawer
carousel and the map geocoder).  JavaScript objects used as string-keyed
maps are modelled as insertion-ordered association lists,
`Array.prototype.sort` as a stable insertion sort driven by the numeric
comparator, `String.prototype.localeCompare` as case-insensitive
lexicographic comparison with a case-sensitive tiebreak, and `parseInt`
by its decimal-prefix semantics.  Machine numbers that the code keeps
finite and integral are modelled as `Int`.
-/

namespace PauReig

/-! ## JavaScript primitives -/

/-- Truthiness of a JavaScript string: nonempty strings are truthy. -/
def truthyStr (s : String) : Bool := s ≠ ""

/-- Truthiness of a possibly-undefined JavaScript string. -/
def truthyOptStr : Option String → Bool
  | none => false
  | some s => truthyStr s

/-- Lowercasing of one character, covering the ASCII and Latin-1 letters
that appear in this site's names (model of the `toLowerCase` mapping). -/
def jsLowerChar (c : Char) : Char :=
  if ('A' ≤ c ∧ c ≤ 'Z') ∨ (192 ≤ c.toNat ∧ c.toNat ≤ 222 ∧ c.toNat ≠ 215) then
    Char.ofNat (c.toNat + 32)
  else c

/-- Model of `String.prototype.toLowerCase`. -/
def jsToLower (s : String) : String := ⟨s.data.map jsLowerChar⟩

/-- JavaScript whitespace test for `trim` (the characters relevant
here). -/
def isJsWhitespace (c : Char) : Bool := c = ' ' ∨ c = '\t' ∨ c = '\n' ∨ c = '\r'

/-- Model of `String.prototype.trim`. -/
def jsTrim (s : String) : String :=
  ⟨((s.data.dropWhile isJsWhitespace).reverse.dropWhile isJsWhitespace).reverse⟩

/-- Model of `String.prototype.startsWith`. -/
def jsStartsWith (s pre : String) : Bool := pre.data.isPrefixOf s.data

/-- Split of a character list at a separator character
(`String.prototype.split` with a one-character separator). -/
def splitChar (sep : Char) : List Char → List (List Char)
  | [] => [[]]
  | c :: cs =>
    let r := splitChar sep cs
    if c = sep then [] :: r
    else
      match r with
      | [] => [[c]]
      | seg :: rest => (c :: seg) :: rest

/-- Model of `s.split(sep)` for a one-character separator. -/
def jsSplit (s : String) (sep : Char) : List String :=
  (splitChar sep s.data).map (fun l => ⟨l⟩)

/-- Three-way comparison of characters, as a JavaScript-style number. -/
def charCmp (a b : Char) : Int := if a < b then -1 else if b < a then 1 else 0

/-- Three-way lexicographic comparison of character lists. -/
def strCmp : List Char → List Char → Int
  | [], [] => 0
  | [], _ :: _ => -1
  | _ :: _, [] => 1
  | a :: as, b :: bs => if charCmp a b = 0 then strCmp as bs else charCmp a b

/-- Model of `String.prototype.localeCompare` (default locale): compare
case-insensitively first, breaking ties with a case-sensitive comparison.
This approximates the root-collation behaviour for the ASCII file and
work names this site uses. -/
def localeCompare (a b : String) : Int :=
  if strCmp (jsToLower a).data (jsToLower b).data = 0 then strCmp a.data b.data
  else strCmp (jsToLower a).data (jsToLower b).data

/-- Longest decimal-digit prefix of a character list; `none` when the list
does not start with a digit (the `NaN` outcome of `parseInt`). -/
def parseDigits : List Char → Nat → Bool → Option Nat
  | [], acc, seen => if seen then some acc else none
  | c :: cs, acc, seen =>
    if c.isDigit then parseDigits cs (10 * acc + (c.toNat - 48)) true
    else if seen then some acc else none

/-- Model of `parseInt(s, 10)`: trim, optional sign, longest digit prefix;
`none` models the `NaN` result. -/
def jsParseInt (s : String) : Option Int :=
  match (jsTrim s).data with
  | '-' :: rest => (parseDigits rest 0 false).map (fun n => -(n : Int))
  | '+' :: rest => (parseDigits rest 0 false).map (fun n => (n : Int))
  | l => (parseDigits l 0 false).map (fun n => (n : Int))

/-- Model of `Array.prototype.indexOf` on string arrays: the index of the
first occurrence, or -1. -/
def jsIndexOf : List String → String → Int
  | [], _ => -1
  | x :: xs, s =>
    if x = s then 0
    else if jsIndexOf xs s = -1 then -1 else jsIndexOf xs s + 1

/-- Lookup in an insertion-ordered string-keyed object. -/
def recordGet {α : Type} (m : List (String × α)) (k : String) : Option α :=
  (m.find? (fun p => p.1 == k)).map (·.2)

/-- Assignment `obj[k] = v` on an insertion-ordered string-keyed object:
overwrite in place when the key exists, otherwise append. -/
def recordSet {α : Type} : List (String × α) → String → α → List (String × α)
  | [], k, v => [(k, v)]
  | p :: rest, k, v =>
    if p.1 = k then (k, v) :: rest else p :: recordSet rest k v

/-- Values of a string-keyed object in key-insertion order
(`Object.values`). -/
def recordValues {α : Type} (m : List (String × α)) : List α := m.map (·.2)

/-- Stable insertion of an element into a list, placing it before the
first element the comparator does not order strictly before it. -/
def insertSorted {α : Type} (cmp : α → α → Int) (x : α) : List α → List α
  | [] => [x]
  | y :: ys => if cmp x y ≤ 0 then x :: y :: ys else y :: insertSorted cmp x ys

/-- Model of `Array.prototype.sort(cmp)`: a stable comparison sort (the
ECMAScript specification requires sort stability). -/
def sortByCmp {α : Type} (cmp : α → α → Int) : List α → List α
  | [] => []
  | x :: xs => insertSorted cmp x (sortByCmp cmp xs)

/-! ## Data model of the catalogue -/

/-- A JSON value that the metadata schema allows to be either a number or
a string (the `year` and `month` fields). -/
inductive NumOrStr where
  | num (n : Int)
  | str (s : String)
deriving DecidableEq, Repr

/-- Metadata record of one work (`WorkMeta` in the source). -/
structure WorkMeta where
  nom : String
  city : Option String := none
  address : Option String := none
  text_catala : Option String := none
  text_angles : Option String := none
  year : Option NumOrStr := none
  month : Option NumOrStr := none
deriving DecidableEq, Repr

/-- One catalogue entry (`WorkItem` in the source). -/
structure WorkItem where
  slug : String
  folderPath : String
  meta : WorkMeta
  mainImageUrl : Option String := none
  main2ImageUrl : Option String := none
  albumImageUrls : List String := []
deriving DecidableEq, Repr

/-- The four glob results `buildWorks` starts from, as path/value lists
(module unwrapping of the JSON default export is already applied). -/
structure GlobInputs where
  jsonModules : List (String × WorkMeta)
  mainImageModules : List (String × String)
  main2ImageModules : List (String × String)
  albumImageModules : List (String × String)

/-- Model of `path.match(/^\/pages\/([^\/]+)\//)`: the folder segment
following the `/pages/` root, when present. -/
def matchFolder (path : String) : Option String :=
  if jsStartsWith path "/pages/" then
    let rest := path.data.drop 7
    let folder := rest.takeWhile (· ≠ '/')
    if folder.length > 0 ∧ folder.length < rest.length then some ⟨folder⟩ else none
  else none

/-- Model of `path.match(/^\/pages\/([^\/]+)\/([^\/]+)$/)`: folder and
file name of a direct child of a `/pages` folder. -/
def matchFolderFile (path : String) : Option (String × String) :=
  if jsStartsWith path "/pages/" then
    let rest := path.data.drop 7
    let folder := rest.takeWhile (· ≠ '/')
    let file := rest.drop (folder.length + 1)
    if folder.length > 0 ∧ folder.length < rest.length ∧ file.length > 0 ∧
        ¬ file.contains '/' then
      some (⟨folder⟩, ⟨file⟩)
    else none
  else none

/-- One step of the base-item construction from a JSON module. -/
def buildBaseStep (acc : List (String × WorkItem)) (pm : String × WorkMeta) :
    List (String × WorkItem) :=
  match matchFolder pm.1 with
  | none => acc
  | some folder =>
    recordSet acc folder
      { slug := folder, folderPath := "/pages/" ++ folder, meta := pm.2,
        mainImageUrl := none, main2ImageUrl := none, albumImageUrls := [] }

/-- Base items built from the JSON metadata modules. -/
def buildBase (jsonModules : List (String × WorkMeta)) :
    List (String × WorkItem) :=
  jsonModules.foldl buildBaseStep []

/-- One step of attaching a `main.*` image URL. -/
def attachMainStep (acc : List (String × WorkItem)) (pu : String × String) :
    List (String × WorkItem) :=
  match matchFolder pu.1 with
  | none => acc
  | some folder =>
    match recordGet acc folder with
    | none =>
      recordSet acc folder
        { slug := folder, folderPath := "/pages/" ++ folder,
          meta := { nom := folder }, mainImageUrl := some pu.2,
          main2ImageUrl := none, albumImageUrls := [] }
    | some w => recordSet acc folder { w with mainImageUrl := some pu.2 }

/-- Attach the `main.*` image URLs, creating placeholder items for folders
with no JSON metadata. -/
def attachMain (acc0 : List (String × WorkItem))
    (mainImageModules : List (String × String)) : List (String × WorkItem) :=
  mainImageModules.foldl attachMainStep acc0

/-- One step of attaching a `main2.*` image URL. -/
def attachMain2Step (acc : List (String × WorkItem)) (pu : String × String) :
    List (String × WorkItem) :=
  match matchFolder pu.1 with
  | none => acc
  | some folder =>
    match recordGet acc folder with
    | none =>
      recordSet acc folder
        { slug := folder, folderPath := "/pages/" ++ folder,
          meta := { nom := folder }, mainImageUrl := none,
          main2ImageUrl := some pu.2, albumImageUrls := [] }
    | some w => recordSet acc folder { w with main2ImageUrl := some pu.2 }

/-- Attach the `main2.*` image URLs, creating placeholder items for folders
with no entry yet. -/
def attachMain2 (acc0 : List (String × WorkItem))
    (main2ImageModules : List (String × String)) : List (String × WorkItem) :=
  main2ImageModules.foldl attachMain2Step acc0

/-- Group album image URLs by folder, tagging each URL with the lowercased
file name after a `#` so the comparator can read it. -/
def collectAlbumsStep (acc : List (String × List String))
    (pu : String × String) : List (String × List String) :=
  match matchFolderFile pu.1 with
  | none => acc
  | some ff =>
    let fileName := jsToLower ff.2
    recordSet acc ff.1 ((recordGet acc ff.1).getD [] ++ [pu.2 ++ "#" ++ fileName])

/-- Group album image URLs by folder, tagging each URL with the lowercased
file name after a `#` so the comparator can read it. -/
def collectAlbums (albumImageModules : List (String × String)) :
    List (String × List String) :=
  albumImageModules.foldl collectAlbumsStep []

/-- File-name tag of a tagged album URL (`a.split('#')[1] ?? ''`). -/
def tagOf (s : String) : String := (jsSplit s '#').getD 1 ""

/-- Untagged URL of a tagged album URL (`u.split('#')[0]`). -/
def stripTag (s : String) : String := (jsSplit s '#').headD ""

/-- The album comparator: files named `main.*` first, then locale order of
the (lowercased) file names. -/
def albumCmp (a b : String) : Int :=
  let an := tagOf a
  let bn := tagOf b
  let aIsMain := jsStartsWith an "main."
  let bIsMain := jsStartsWith bn "main."
  if aIsMain ∧ ¬ bIsMain then -1
  else if ¬ aIsMain ∧ bIsMain then 1
  else localeCompare an bn

/-- The item stored for a folder once its album images are attached: a
fresh placeholder when the folder had no entry, otherwise the existing
entry with the sorted album, whose primary image falls back to the first
sorted album image when it was not truthy. -/
def albumResult (existing : Option WorkItem) (folder : String)
    (urlsWithTags : List String) : WorkItem :=
  let sorted := (sortByCmp albumCmp urlsWithTags).map stripTag
  match existing with
  | none =>
    { slug := folder, folderPath := "/pages/" ++ folder,
      meta := { nom := folder }, mainImageUrl := none, main2ImageUrl := none,
      albumImageUrls := sorted }
  | some w =>
    let w1 := { w with albumImageUrls := sorted }
    if ¬ truthyOptStr w1.mainImageUrl ∧ 0 < sorted.length then
      { w1 with mainImageUrl := sorted.head? }
    else w1

/-- Process one folder of the grouped album images. -/
def attachAlbumEntry (acc : List (String × WorkItem)) (folder : String)
    (urlsWithTags : List String) : List (String × WorkItem) :=
  recordSet acc folder (albumResult (recordGet acc folder) folder urlsWithTags)

/-- Attach all album images folder by folder. -/
def attachAlbums (acc0 : List (String × WorkItem))
    (albums : List (String × List String)) : List (String × WorkItem) :=
  albums.foldl (fun acc fa => attachAlbumEntry acc fa.1 fa.2) acc0

/-- The retention filter: keep folders that at least have a (truthy) name,
a truthy main image URL, or a nonempty album. -/
def keepItem (w : WorkItem) : Bool :=
  truthyStr w.meta.nom || truthyOptStr w.mainImageUrl ||
    decide (0 < w.albumImageUrls.length)

/-- The fixed manual priority list of slugs. -/
def priorityOrder : List String :=
  ["lleo", "oliba", "ovella", "asparrac", "somera", "oliva"]

/-- Finite numeric value of the `year` field: `none` models both the
`NaN` of a failed `parseInt` and the `-Infinity` of a missing year. -/
def yearNum (m : WorkMeta) : Option Int :=
  match m.year with
  | none => none
  | some (.num n) => some n
  | some (.str s) => jsParseInt s

/-- Display name used as the sorting tiebreak (`a.meta.nom || a.slug`). -/
def displayName (w : WorkItem) : String :=
  if truthyStr w.meta.nom then w.meta.nom else w.slug

/-- The item comparator of `buildWorks`: priority slugs first in list
order, then descending finite year, then locale order of names. -/
def itemCmp (a b : WorkItem) : Int :=
  let ai := jsIndexOf priorityOrder a.slug
  let bi := jsIndexOf priorityOrder b.slug
  if ai ≠ -1 ∧ bi ≠ -1 then ai - bi
  else if ai ≠ -1 then -1
  else if bi ≠ -1 then 1
  else
    match yearNum a.meta, yearNum b.meta with
    | some ay, some yb =>
      if ay ≠ yb then yb - ay else localeCompare (displayName a) (displayName b)
    | _, _ => localeCompare (displayName a) (displayName b)

/-- The record of items keyed by folder before album attachment (JSON
metadata merged with main and main2 images). -/
def worksBeforeAlbums (inp : GlobInputs) : List (String × WorkItem) :=
  attachMain2 (attachMain (buildBase inp.jsonModules) inp.mainImageModules)
    inp.main2ImageModules

/-- The full `buildWorks` pipeline: merge the four glob inputs, filter,
and sort. -/
def buildWorks (inp : GlobInputs) : List WorkItem :=
  let merged := attachAlbums (worksBeforeAlbums inp)
    (collectAlbums inp.albumImageModules)
  sortByCmp itemCmp ((recordValues merged).filter keepItem)

/-! ## Timeline and calendar views -/

/-- The month-name table of `monthToIndex`. -/
def monthNameTable : List (String × Int) :=
  [("january", 0), ("jan", 0), ("gener", 0), ("ene", 0),
   ("february", 1), ("feb", 1), ("febrer", 1),
   ("march", 2), ("mar", 2), ("març", 2), ("marzo", 2),
   ("april", 3), ("apr", 3), ("abril", 3),
   ("may", 4), ("mai", 4), ("mayo", 4), ("maig", 4),
   ("june", 5), ("jun", 5), ("juny", 5), ("junio", 5),
   ("july", 6), ("jul", 6), ("juliol", 6), ("julio", 6),
   ("august", 7), ("aug", 7), ("agost", 7),
   ("september", 8), ("sep", 8), ("setembre", 8),
   ("october", 9), ("oct", 9), ("octubre", 9),
   ("november", 10), ("nov", 10), ("novembre", 10),
   ("december", 11), ("dec", 11), ("desembre", 11), ("diciembre", 11)]

/-- Model of `monthToIndex`: numbers are clamped to the index range
0..11, strings are looked up (trimmed, lowercased) in the name table,
anything else yields `none` (the `null` of the source). -/
def monthToIndex : Option NumOrStr → Option Int
  | none => none
  | some (.num n) => some (min 11 (max 0 (n - 1)))
  | some (.str s) => recordGet monthNameTable (jsToLower (jsTrim s))

/-- Valid numeric year of a work for the timeline and calendar grouping
(`!year || isNaN(year)` drops missing, unparsable and zero years). -/
def workYear (w : WorkItem) : Option Int :=
  match yearNum w.meta with
  | none => none
  | some y => if y = 0 then none else some y

/-- Month index used by the timeline bucketing
(`monthToIndex(work.meta.month) ?? 0`). -/
def timelineMonthIndex (w : WorkItem) : Int := (monthToIndex w.meta.month).getD 0

/-- Works of a given year falling in a given timeline month slot, in
input order. -/
def timelineBucketWorks (works : List WorkItem) (y : Int) (m : Nat) :
    List WorkItem :=
  works.filter (fun w =>
    decide (workYear w = some y) && decide (timelineMonthIndex w = (m : Int)))

/-- A timeline point: one (year, month) slot with its works. -/
structure TimePoint where
  year : Int
  month : Nat
  works : List WorkItem
  timestamp : Int
deriving DecidableEq, Repr

/-- The distinct years that have at least one dated work, sorted latest
first (`Array.from(yearMap.keys()).sort((a, b) => b - a)`). -/
def timelineYears (works : List WorkItem) : List Int :=
  sortByCmp (fun a b => b - a) (works.filterMap workYear).dedup

/-- Timeline points for all 12 months of every year that has works,
sorted by descending timestamp. -/
def timelinePoints (works : List WorkItem) : List TimePoint :=
  let timePoints := (timelineYears works).flatMap (fun y =>
    (List.range 12).map (fun month =>
      { year := y, month := month,
        works := timelineBucketWorks works y month,
        timestamp := y * 12 + (month : Int) }))
  sortByCmp (fun a b => b.timestamp - a.timestamp) timePoints

/-- Push a work onto the bucket at an index (no-op out of range, matching
an array write through a valid index). -/
def pushAt : List (List WorkItem) → Nat → WorkItem → List (List WorkItem)
  | [], _, _ => []
  | l :: ls, 0, w => (l ++ [w]) :: ls
  | l :: ls, i + 1, w => l :: pushAt ls i w

/-- Floor of the base-2 logarithm, with an explicit fuel bound on the
recursion depth so the kernel can evaluate it. -/
def log2Fuel : Nat → Nat → Nat
  | 0, _ => 0
  | fuel + 1, n => if n ≤ 1 then 0 else log2Fuel fuel (n / 2) + 1

/-- Floor of the base-2 logarithm of a natural number (the fuel n bounds
the halving depth for every input). -/
def natLog2 (n : Nat) : Nat := log2Fuel n n

/-- Nearest integer to the exact quotient N / d, ties to even — the
IEEE 754 default rounding applied to a scaled exact quotient. -/
def rneDiv (N d : Nat) : Nat :=
  let q := N / d
  let r := N % d
  if 2 * r < d then q
  else if d < 2 * r then q + 1
  else if q % 2 = 0 then q else q + 1

/-- The IEEE binary64 value of i / d for 1 ≤ i ≤ d, as a pair (m, s)
denoting m / 2^s: the quotient's binade 2^(-k) ≤ i/d < 2^(-k+1) fixes
the rounding grain 2^(-s) with s = min (k + 52) 1074 (normal numbers
carry 53 significant bits, subnormals bottom out at 2^(-1074)), and m
is the quotient correctly rounded to that grain. -/
def fl64DivAux (i d : Nat) : Nat × Nat :=
  let la := natLog2 i
  let lb := natLog2 d
  let k := if d ≤ i * 2 ^ (lb - la) then lb - la else lb - la + 1
  let s := min (k + 52) 1074
  (rneDiv (i * 2 ^ s) d, s)

/-- Multiply a binary64 value m / 2^s by 11, round the product back to
binary64 (drop its bit length minus 53 bits, ties to even), and apply
`Math.round`, the exact half-up round of the resulting double. -/
def calendarRound (ms : Nat × Nat) : Nat :=
  let p2 := 11 * ms.1
  let t := (natLog2 p2 + 1) - 53
  let m2 := rneDiv p2 (2 ^ t)
  (2 * m2 + 2 ^ (ms.2 - t)) / 2 ^ (ms.2 - t + 1)

/-- Target slot of the i-th of n unknown-month works in the calendar
spread: `Math.round((i / Math.max(1, n - 1)) * 11)` computed as the
program computes it, in IEEE binary64 arithmetic — the division and the
multiplication are each correctly rounded to nearest-even before
`Math.round` takes the exact half-up round of the resulting double.
Loop indices and array lengths are below 2^32 in JavaScript and hence
exact as doubles, so i and n enter the computation exactly. -/
def calendarTarget (i n : Nat) : Nat :=
  let d := max 1 (n - 1)
  if i = 0 then 0 else calendarRound (fl64DivAux i d)

/-- First pass of the calendar bucketing: distribute the works of one
year over the 12 month buckets, collecting unknown-month works aside. -/
def calendarFill (items : List WorkItem) :
    List (List WorkItem) × List WorkItem :=
  items.foldl
    (fun acc w =>
      match monthToIndex w.meta.month with
      | none => (acc.1, acc.2 ++ [w])
      | some idx => (pushAt acc.1 idx.toNat w, acc.2))
    (List.replicate 12 [], [])

/-- Second pass: spread the unknown-month works evenly across the year. -/
def calendarSpread (buckets : List (List WorkItem)) (unknown : List WorkItem) :
    List (List WorkItem) :=
  unknown.enum.foldl
    (fun acc iw => pushAt acc (calendarTarget iw.1 unknown.length) iw.2)
    buckets

/-- The twelve month buckets shown by the calendar for one year. -/
def calendarBuckets (works : List WorkItem) (y : Int) : List (List WorkItem) :=
  let items := works.filter (fun w => decide (workYear w = some y))
  calendarSpread (calendarFill items).1 (calendarFill items).2

/-! ## Detail drawer carousel -/

/-- Selection and carousel position of the detail drawer. -/
structure CarouselState where
  selectedSlug : Option String
  currentImageIndex : Int
deriving DecidableEq, Repr

/-- The drawer operations: next image, previous image, or selecting a
(possibly absent) work. -/
inductive CarouselOp where
  | next
  | prev
  | select (slug : Option String)
deriving DecidableEq, Repr

/-- The selected work (`works.find((w) => w.slug === selectedSlug)`). -/
def selectedWork (works : List WorkItem) (sel : Option String) :
    Option WorkItem :=
  match sel with
  | none => none
  | some sl => works.find? (fun w => w.slug == sl)

/-- One transition of the drawer state: selection resets the index to 0;
next and previous step the index with wraparound modulo the selected
album's length and do nothing without a selected nonempty album. -/
def carouselStep (works : List WorkItem) (st : CarouselState)
    (op : CarouselOp) : CarouselState :=
  match op with
  | .select sl => { selectedSlug := sl, currentImageIndex := 0 }
  | .next =>
    match selectedWork works st.selectedSlug with
    | none => st
    | some w =>
      if w.albumImageUrls.length = 0 then st
      else { st with currentImageIndex :=
        (st.currentImageIndex + 1) % (w.albumImageUrls.length : Int) }
  | .prev =>
    match selectedWork works st.selectedSlug with
    | none => st
    | some w =>
      if w.albumImageUrls.length = 0 then st
      else { st with currentImageIndex :=
        (st.currentImageIndex - 1 + (w.albumImageUrls.length : Int)) %
          (w.albumImageUrls.length : Int) }

/-- The drawer's initial state: nothing selected, index 0. -/
def carouselInit : CarouselState := { selectedSlug := none, currentImageIndex := 0 }

/-! ## Map view and geocoder -/

/-- A geocoded coordinate (numeric values are opaque to the claims, so
the parsed floats are modelled as integers). -/
structure LatLng where
  lat : Int
  lng : Int
deriving DecidableEq, Repr

/-- Outcome of one network request to the geocoding service. -/
inductive NetResult where
  | netError
  | httpError
  | ok (data : List LatLng)
deriving DecidableEq, Repr

/-- Model of `geocode`: serve from the cache when the query is cached,
otherwise perform one network request, caching and returning the first
result only when the request succeeds with a nonempty result set.
Returns the result, the updated cache, and the number of network calls
made. -/
def geocode (net : String → NetResult) (cache : List (String × LatLng))
    (query : String) : Option LatLng × List (String × LatLng) × Nat :=
  match recordGet cache query with
  | some pos => (some pos, cache, 0)
  | none =>
    match net query with
    | .netError => (none, cache, 1)
    | .httpError => (none, cache, 1)
    | .ok [] => (none, cache, 1)
    | .ok (d :: _) => (some d, recordSet cache query d, 1)

/-- Query string of a work for the map view
(`w.meta.address || w.meta.city || ''`). -/
def queryOf (w : WorkItem) : String :=
  let a := w.meta.address.getD ""
  let c := w.meta.city.getD ""
  if a ≠ "" then a else if c ≠ "" then c else ""

/-- The work/query pairs the map view geocodes, keeping only truthy
queries. -/
def mapAddresses (works : List WorkItem) : List WorkItem :=
  works.filter (fun w => truthyStr (queryOf w))

/-- One iteration of the geocoding loop: resolve one work's query against
the current cache, keeping the pair when a position comes back. -/
def mapStep (net : String → NetResult)
    (acc : List (WorkItem × LatLng) × List (String × LatLng) × Nat)
    (w : WorkItem) :
    List (WorkItem × LatLng) × List (String × LatLng) × Nat :=
  let r := geocode net acc.2.1 (queryOf w)
  match r.1 with
  | some pos => (acc.1 ++ [(w, pos)], r.2.1, acc.2.2 + r.2.2)
  | none => (acc.1, r.2.1, acc.2.2 + r.2.2)

/-- The sequential geocoding loop of the map view: resolve each address
in order, keeping the works whose lookup succeeds.  Returns the resolved
work/position pairs, the final cache, and the number of network calls. -/
def mapResults (net : String → NetResult) (cache : List (String × LatLng))
    (works : List WorkItem) :
    List (WorkItem × LatLng) × List (String × LatLng) × Nat :=
  (mapAddresses works).foldl (mapStep net) ([], cache, 0)

/-- The items rendered by the grid view: every work in order. -/
def gridItems (works : List WorkItem) : List WorkItem := works

/-- The items rendered by the list view: every work in order. -/
def listItems (works : List WorkItem) : List WorkItem := works

/-! ## Lemmas about the comparison primitives -/

theorem charCmp_eq_zero {a b : Char} : charCmp a b = 0 ↔ a = b := by
  unfold charCmp
  split_ifs with h1 h2
  · simp [h1.ne]
  · simp [h2.ne']
  · simp [le_antisymm (not_lt.mp h2) (not_lt.mp h1)]

theorem charCmp_neg (a b : Char) : charCmp b a = -charCmp a b := by
  unfold charCmp
  rcases lt_trichotomy a b with h | h | h
  · simp [h, not_lt.mpr h.le, h.ne']
  · simp [h]
  · simp [h, not_lt.mpr h.le, h.ne']

theorem charCmp_lt {a b : Char} : charCmp a b < 0 ↔ a < b := by
  unfold charCmp
  split_ifs with h1 h2
  · simpa using h1
  · simpa using h1
  · simpa using h1

theorem strCmp_eq_zero : ∀ {a b : List Char}, strCmp a b = 0 ↔ a = b
  | [], [] => by simp [strCmp]
  | [], _ :: _ => by simp [strCmp]
  | _ :: _, [] => by simp [strCmp]
  | a :: as, b :: bs => by
    unfold strCmp
    by_cases h : charCmp a b = 0
    · have e : a = b := charCmp_eq_zero.mp h
      subst e
      simp [h, strCmp_eq_zero (a := as) (b := bs)]
    · simp only [if_neg h]
      constructor
      · intro hc; exact absurd hc h
      · intro hc
        exact absurd (charCmp_eq_zero.mpr (by injection hc)) h

theorem strCmp_neg : ∀ (a b : List Char), strCmp b a = -strCmp a b
  | [], [] => by simp [strCmp]
  | [], _ :: _ => by simp [strCmp]
  | _ :: _, [] => by simp [strCmp]
  | a :: as, b :: bs => by
    unfold strCmp
    by_cases h : charCmp a b = 0
    · have h' : charCmp b a = 0 := by rw [charCmp_neg, h]; rfl
      simp [h, h', strCmp_neg as bs]
    · have h' : charCmp b a ≠ 0 := by
        rw [charCmp_neg]; exact fun hc => h (by omega)
      simp [h, h', charCmp_neg a b]

theorem strCmp_lt_trans : ∀ (a b c : List Char),
    strCmp a b < 0 → strCmp b c < 0 → strCmp a c < 0
  | [], [], _ => by intro hab _; simp [strCmp] at hab
  | [], _ :: _, [] => by intro _ hbc; simp [strCmp] at hbc
  | [], _ :: _, _ :: _ => by intro _ _; simp [strCmp]
  | _ :: _, [], _ => by intro hab _; simp [strCmp] at hab
  | _ :: _, _ :: _, [] => by intro _ hbc; simp [strCmp] at hbc
  | a :: as, b :: bs, c :: cs => by
    intro hab hbc
    unfold strCmp at hab hbc ⊢
    by_cases h1 : charCmp a b = 0 <;> by_cases h2 : charCmp b c = 0
    · have e1 : a = b := charCmp_eq_zero.mp h1
      subst e1
      have e2 : a = c := charCmp_eq_zero.mp h2
      subst e2
      simp only [if_pos h1] at hab hbc ⊢
      exact strCmp_lt_trans as bs cs hab hbc
    · have e1 : a = b := charCmp_eq_zero.mp h1
      subst e1
      simp only [if_neg h2] at hbc ⊢
      exact hbc
    · have e2 : b = c := charCmp_eq_zero.mp h2
      subst e2
      simp only [if_neg h1] at hab ⊢
      exact hab
    · simp only [if_neg h1] at hab
      simp only [if_neg h2] at hbc
      have hac : charCmp a c < 0 :=
        charCmp_lt.mpr ((charCmp_lt.mp hab).trans (charCmp_lt.mp hbc))
      have hnz : charCmp a c ≠ 0 := by omega
      simp only [if_neg hnz]
      exact hac

theorem strCmp_le_trans {a b c : List Char}
    (hab : strCmp a b ≤ 0) (hbc : strCmp b c ≤ 0) : strCmp a c ≤ 0 := by
  by_cases h1 : strCmp a b = 0
  · rw [strCmp_eq_zero.mp h1]; exact hbc
  · by_cases h2 : strCmp b c = 0
    · rw [← strCmp_eq_zero.mp h2]; exact hab
    · exact (strCmp_lt_trans a b c (lt_of_le_of_ne hab h1)
        (lt_of_le_of_ne hbc h2)).le

theorem localeCompare_neg (a b : String) : localeCompare b a = -localeCompare a b := by
  unfold localeCompare
  by_cases h : strCmp (jsToLower a).data (jsToLower b).data = 0
  · have h' : strCmp (jsToLower b).data (jsToLower a).data = 0 := by
      rw [strCmp_neg, h]; rfl
    simp [h, h', strCmp_neg a.data b.data]
  · have h' : strCmp (jsToLower b).data (jsToLower a).data ≠ 0 := by
      rw [strCmp_neg]; exact fun hc => h (by omega)
    simp [h, h', strCmp_neg (jsToLower a).data (jsToLower b).data]

theorem localeCompare_le_trans {a b c : String}
    (hab : localeCompare a b ≤ 0) (hbc : localeCompare b c ≤ 0) :
    localeCompare a c ≤ 0 := by
  unfold localeCompare at hab hbc ⊢
  by_cases h1 : strCmp (jsToLower a).data (jsToLower b).data = 0 <;>
    by_cases h2 : strCmp (jsToLower b).data (jsToLower c).data = 0
  · have e1 : (jsToLower a).data = (jsToLower b).data := strCmp_eq_zero.mp h1
    have e2 : (jsToLower b).data = (jsToLower c).data := strCmp_eq_zero.mp h2
    have e3 : strCmp (jsToLower a).data (jsToLower c).data = 0 :=
      strCmp_eq_zero.mpr (e1.trans e2)
    simp only [if_pos h1] at hab
    simp only [if_pos h2] at hbc
    simp [e3, strCmp_le_trans hab hbc]
  · have e1 : (jsToLower a).data = (jsToLower b).data := strCmp_eq_zero.mp h1
    rw [e1]
    simp only [if_neg h2] at hbc ⊢
    exact hbc
  · have e2 : (jsToLower b).data = (jsToLower c).data := strCmp_eq_zero.mp h2
    rw [← e2]
    simp only [if_neg h1] at hab ⊢
    exact hab
  · simp only [if_neg h1] at hab
    simp only [if_neg h2] at hbc
    have hlt : strCmp (jsToLower a).data (jsToLower c).data < 0 :=
      strCmp_lt_trans _ _ _ (lt_of_le_of_ne hab h1) (lt_of_le_of_ne hbc h2)
    have hne : strCmp (jsToLower a).data (jsToLower c).data ≠ 0 := by omega
    simp [hne, hlt.le]

/-! ## Lemmas about the stable sort -/

theorem mem_insertSorted {α : Type} (cmp : α → α → Int) (x : α) :
    ∀ (l : List α) (a : α), a ∈ insertSorted cmp x l ↔ a = x ∨ a ∈ l
  | [], a => by simp [insertSorted]
  | y :: ys, a => by
    unfold insertSorted
    by_cases h : cmp x y ≤ 0
    · simp [h]
    · simp only [if_neg h, List.mem_cons, mem_insertSorted cmp x ys a]
      tauto

theorem mem_sortByCmp {α : Type} (cmp : α → α → Int) :
    ∀ (l : List α) (a : α), a ∈ sortByCmp cmp l ↔ a ∈ l
  | [], a => by simp [sortByCmp]
  | x :: xs, a => by
    unfold sortByCmp
    rw [mem_insertSorted, mem_sortByCmp cmp xs a]
    simp

theorem chain'_insertSorted {α : Type} (cmp : α → α → Int)
    (H : ∀ a b, 0 < cmp a b → cmp b a ≤ 0) (x : α) :
    ∀ (l : List α), l.Chain' (fun a b => cmp a b ≤ 0) →
      (insertSorted cmp x l).Chain' (fun a b => cmp a b ≤ 0)
  | [], _ => by simp [insertSorted]
  | y :: ys, hl => by
    unfold insertSorted
    rcases List.chain'_cons'.mp hl with ⟨hhead, hys⟩
    by_cases h : cmp x y ≤ 0
    · simp only [if_pos h]
      exact List.chain'_cons'.mpr ⟨fun z hz => by simp at hz; exact hz ▸ h, hl⟩
    · simp only [if_neg h]
      refine List.chain'_cons'.mpr ⟨?_, chain'_insertSorted cmp H x ys hys⟩
      intro z hz
      cases ys with
      | nil =>
        simp [insertSorted] at hz
        exact hz ▸ H x y (not_le.mp h)
      | cons u us =>
        unfold insertSorted at hz
        by_cases hxu : cmp x u ≤ 0
        · simp [if_pos hxu] at hz
          exact hz ▸ H x y (not_le.mp h)
        · simp [if_neg hxu] at hz
          exact hz ▸ hhead u (by simp)

theorem chain'_sortByCmp {α : Type} (cmp : α → α → Int)
    (H : ∀ a b, 0 < cmp a b → cmp b a ≤ 0) :
    ∀ (l : List α), (sortByCmp cmp l).Chain' (fun a b => cmp a b ≤ 0)
  | [] => by simp [sortByCmp]
  | x :: xs => by
    unfold sortByCmp
    exact chain'_insertSorted cmp H x _ (chain'_sortByCmp cmp H xs)

theorem jsIndexOf_bounds : ∀ (l : List String) (s : String),
    jsIndexOf l s = -1 ∨ (0 ≤ jsIndexOf l s ∧ jsIndexOf l s < l.length)
  | [], s => by simp [jsIndexOf]
  | x :: xs, s => by
    unfold jsIndexOf
    by_cases h : x = s
    · right; simp [h]
    · rcases jsIndexOf_bounds xs s with h2 | h2
      · left; simp [h, h2]
      · right
        simp only [if_neg h, if_neg (by omega : ¬ jsIndexOf xs s = -1)]
        simp only [List.length_cons]
        constructor
        · omega
        · push_cast
          omega

/-! ## Lemmas about insertion-ordered records -/

theorem recordGet_set_self {α : Type} :
    ∀ (m : List (String × α)) (k : String) (v : α),
      recordGet (recordSet m k v) k = some v
  | [], k, v => by simp [recordGet, recordSet, List.find?]
  | p :: rest, k, v => by
    unfold recordSet
    by_cases h : p.1 = k
    · simp [recordGet, List.find?, h]
    · simp only [if_neg h]
      have : (p.1 == k) = false := by simpa using h
      simp [recordGet, List.find?, this, ← recordGet_set_self rest k v, recordGet]

theorem recordGet_set_other {α : Type} :
    ∀ (m : List (String × α)) (k k' : String) (v : α), k' ≠ k →
      recordGet (recordSet m k v) k' = recordGet m k'
  | [], k, k', v, h => by
    simp [recordGet, recordSet, List.find?, (by simpa using h.symm : (k == k') = false)]
  | p :: rest, k, k', v, h => by
    unfold recordSet
    by_cases hp : p.1 = k
    · have h1 : (k == k') = false := by simpa using fun hc => h hc.symm
      have h2 : (p.1 == k') = false := by simpa [hp] using fun hc => h hc.symm
      simp [if_pos hp, recordGet, List.find?, h1, h2]
    · simp only [if_neg hp]
      by_cases hq : p.1 = k'
      · simp [recordGet, List.find?, hq]
      · have h2 : (p.1 == k') = false := by simpa using hq
        simp only [recordGet, List.find?, h2]
        exact recordGet_set_other rest k k' v h

/-- Keys of a record. -/
def recordKeys {α : Type} (m : List (String × α)) : List String := m.map (·.1)

theorem mem_recordKeys_set {α : Type} :
    ∀ (m : List (String × α)) (k k' : String) (v : α),
      k' ∈ recordKeys (recordSet m k v) ↔ k' ∈ recordKeys m ∨ k' = k
  | [], k, k', v => by simp [recordKeys, recordSet]
  | p :: rest, k, k', v => by
    unfold recordSet
    by_cases h : p.1 = k
    · simp [recordKeys, h]
      tauto
    · simp only [if_neg h, recordKeys, List.map_cons, List.mem_cons]
      rw [show (List.map (fun p => p.1) (recordSet rest k v)) =
        recordKeys (recordSet rest k v) from rfl,
        mem_recordKeys_set rest k k' v]
      simp [recordKeys]
      tauto

theorem keysNodup_recordSet {α : Type} :
    ∀ (m : List (String × α)) (k : String) (v : α),
      (recordKeys m).Nodup → (recordKeys (recordSet m k v)).Nodup
  | [], k, v, _ => by simp [recordKeys, recordSet]
  | p :: rest, k, v, hnd => by
    unfold recordSet
    simp only [recordKeys, List.map_cons, List.nodup_cons] at hnd
    by_cases h : p.1 = k
    · simp only [if_pos h, recordKeys, List.map_cons, List.nodup_cons]
      exact ⟨h ▸ hnd.1, hnd.2⟩
    · simp only [if_neg h, recordKeys, List.map_cons, List.nodup_cons]
      refine ⟨?_, keysNodup_recordSet rest k v hnd.2⟩
      intro hc
      rcases (mem_recordKeys_set rest k p.1 v).mp hc with hc2 | hc2
      · exact hnd.1 hc2
      · exact h hc2

theorem recordGet_of_mem {α : Type} :
    ∀ (m : List (String × α)) (k : String) (v : α),
      (recordKeys m).Nodup → (k, v) ∈ m → recordGet m k = some v
  | [], k, v, _, hm => by simp at hm
  | p :: rest, k, v, hnd, hm => by
    simp only [recordKeys, List.map_cons, List.nodup_cons] at hnd
    rcases List.mem_cons.mp hm with he | hm2
    · simp [recordGet, List.find?, ← he]
    · have hk : k ∈ recordKeys rest := by
        simp only [recordKeys, List.mem_map]
        exact ⟨(k, v), hm2, rfl⟩
      have hne : (p.1 == k) = false := by
        simp only [beq_eq_false_iff_ne, ne_eq]
        intro hc; exact hnd.1 (hc ▸ hk)
      simp only [recordGet, List.find?, hne]
      exact recordGet_of_mem rest k v hnd.2 hm2

theorem mem_of_recordGet {α : Type} :
    ∀ (m : List (String × α)) (k : String) (v : α),
      recordGet m k = some v → (k, v) ∈ m
  | [], k, v, h => by simp [recordGet, List.find?] at h
  | p :: rest, k, v, h => by
    simp only [recordGet, List.find?] at h
    by_cases hp : (p.1 == k) = true
    · simp only [hp] at h
      have : p = (k, v) := by
        have h1 : p.1 = k := by simpa using hp
        have h2 : p.2 = v := by simpa using h
        exact Prod.ext h1 h2
      simp [this]
    · simp only [Bool.not_eq_true] at hp
      simp only [hp] at h
      exact List.mem_cons_of_mem p (mem_of_recordGet rest k v h)

theorem mem_recordValues {α : Type} (m : List (String × α)) (v : α) :
    v ∈ recordValues m ↔ ∃ k, (k, v) ∈ m := by
  simp only [recordValues, List.mem_map]
  constructor
  · rintro ⟨p, hp, he⟩
    exact ⟨p.1, by rwa [show (p.1, v) = p from Prod.ext rfl he.symm]⟩
  · rintro ⟨k, hk⟩
    exact ⟨(k, v), hk, rfl⟩

/-! ## Lemmas about the item and album comparators -/

/-- Sorting rank induced by the priority list: the index for listed
slugs, the list length for all other slugs. -/
def priRank (w : WorkItem) : Int :=
  if jsIndexOf priorityOrder w.slug = -1 then (priorityOrder.length : Int)
  else jsIndexOf priorityOrder w.slug

theorem itemCmp_neg (a b : WorkItem) : itemCmp b a = -itemCmp a b := by
  simp only [itemCmp]
  by_cases ha : jsIndexOf priorityOrder a.slug = -1 <;>
    by_cases hb : jsIndexOf priorityOrder b.slug = -1
  · rw [if_neg (by simp [ha, hb]), if_neg (by simp [ha, hb]),
      if_neg (by simp [ha, hb]), if_neg (by simp [ha, hb]),
      if_neg (by simp [ha, hb]), if_neg (by simp [ha, hb])]
    rcases hA : yearNum a.meta with _ | ay <;>
      rcases hB : yearNum b.meta with _ | yb <;>
      simp only [hA, hB]
    · exact localeCompare_neg _ _
    · exact localeCompare_neg _ _
    · exact localeCompare_neg _ _
    · by_cases hy : ay = yb
      · rw [if_neg (by omega), if_neg (by omega)]
        exact localeCompare_neg _ _
      · rw [if_pos (by omega), if_pos (by omega)]
        omega
  · rw [if_neg (by simp [ha, hb]), if_pos hb, if_neg (by simp [ha, hb]),
      if_neg (by simp [ha, hb]), if_pos hb]
    try norm_num
  · rw [if_neg (by simp [ha, hb]), if_neg (by simp [ha, hb]), if_pos ha,
      if_neg (by simp [ha, hb]), if_pos ha]
    try norm_num
  · rw [if_pos ⟨hb, ha⟩, if_pos ⟨ha, hb⟩]
    omega

theorem itemCmp_rank_mono {a b : WorkItem} (h : itemCmp a b ≤ 0) :
    priRank a ≤ priRank b := by
  have hA := jsIndexOf_bounds priorityOrder a.slug
  have hB := jsIndexOf_bounds priorityOrder b.slug
  unfold priRank
  simp only [itemCmp] at h
  by_cases ha : jsIndexOf priorityOrder a.slug = -1 <;>
    by_cases hb : jsIndexOf priorityOrder b.slug = -1
  · rw [if_pos ha, if_pos hb]
  · exfalso
    rw [if_neg (by simp [ha, hb]), if_neg (by simp [ha, hb]), if_pos hb] at h
    omega
  · rw [if_neg ha, if_pos hb]
    omega
  · rw [if_neg ha, if_neg hb]
    rw [if_pos ⟨ha, hb⟩] at h
    omega

theorem itemCmp_sign (a b : WorkItem) (h : 0 < itemCmp a b) : itemCmp b a ≤ 0 := by
  rw [itemCmp_neg]
  omega

/-- Rank of a tagged album URL: files named `main.*` rank before all
others. -/
def mainRank (s : String) : Int := if jsStartsWith (tagOf s) "main." then 0 else 1

/-- The ordering the album sort establishes: `main.*` files precede the
rest, and equal ranks are in locale order of the tags. -/
def albumRel (a b : String) : Prop :=
  mainRank a ≤ mainRank b ∧
    (mainRank a = mainRank b → localeCompare (tagOf a) (tagOf b) ≤ 0)

theorem albumCmp_neg (a b : String) : albumCmp b a = -albumCmp a b := by
  unfold albumCmp
  by_cases ha : jsStartsWith (tagOf a) "main." = true <;>
    by_cases hb : jsStartsWith (tagOf b) "main." = true <;>
    simp [ha, hb, localeCompare_neg (tagOf a) (tagOf b)]

theorem albumCmp_sign (a b : String) (h : 0 < albumCmp a b) : albumCmp b a ≤ 0 := by
  rw [albumCmp_neg]
  omega

theorem albumCmp_le_albumRel {a b : String} (h : albumCmp a b ≤ 0) :
    albumRel a b := by
  simp only [albumCmp] at h
  unfold albumRel mainRank
  by_cases ha : jsStartsWith (tagOf a) "main." = true <;>
    by_cases hb : jsStartsWith (tagOf b) "main." = true
  · rw [if_neg (by simp [ha, hb]), if_neg (by simp [ha, hb])] at h
    rw [if_pos ha, if_pos hb]
    exact ⟨le_refl _, fun _ => h⟩
  · rw [if_pos ha, if_neg hb]
    exact ⟨by omega, fun hc => absurd hc (by omega)⟩
  · rw [if_neg (by simp [ha]), if_pos (by simp [ha, hb])] at h
    exact absurd h (by omega)
  · rw [if_neg (by simp [ha, hb]), if_neg (by simp [ha, hb])] at h
    rw [if_neg ha, if_neg hb]
    exact ⟨le_refl _, fun _ => h⟩

theorem albumRel_trans {a b c : String} (h1 : albumRel a b) (h2 : albumRel b c) :
    albumRel a c := by
  obtain ⟨hr1, hl1⟩ := h1
  obtain ⟨hr2, hl2⟩ := h2
  refine ⟨hr1.trans hr2, fun he => ?_⟩
  have e1 : mainRank a = mainRank b := le_antisymm hr1 (he ▸ hr2)
  have e2 : mainRank b = mainRank c := e1 ▸ he
  exact localeCompare_le_trans (hl1 e1) (hl2 e2)

/-! ## Invariants of the buildWorks pipeline -/

theorem forall_recordSet {α : Type} {P : String × α → Prop} :
    ∀ (m : List (String × α)) (k : String) (v : α),
      (∀ p ∈ m, P p) → P (k, v) → ∀ p ∈ recordSet m k v, P p
  | [], k, v, _, hv => by
    intro p hp
    simp only [recordSet, List.mem_singleton] at hp
    exact hp ▸ hv
  | q :: rest, k, v, hm, hv => by
    unfold recordSet
    by_cases h : q.1 = k
    · simp only [if_pos h]
      intro p hp
      rcases List.mem_cons.mp hp with he | hp2
      · exact he ▸ hv
      · exact hm p (List.mem_cons_of_mem q hp2)
    · simp only [if_neg h]
      intro p hp
      rcases List.mem_cons.mp hp with he | hp2
      · exact he ▸ hm q (List.mem_cons_self q rest)
      · exact forall_recordSet rest k v
          (fun p hp => hm p (List.mem_cons_of_mem q hp)) hv p hp2

theorem recordGet_eq_none_iff {α : Type} :
    ∀ (m : List (String × α)) (k : String),
      recordGet m k = none ↔ k ∉ recordKeys m
  | [], k => by simp [recordGet, recordKeys, List.find?]
  | p :: rest, k => by
    by_cases h : p.1 = k
    · have hb : (p.1 == k) = true := by simpa using h
      simp [recordGet, List.find?, hb, recordKeys, h]
    · have hb : (p.1 == k) = false := by simpa using h
      simp only [recordGet, List.find?, hb, recordKeys, List.map_cons,
        List.mem_cons]
      rw [show ((rest.find? (fun p => p.1 == k)).map (·.2) = none) =
        (recordGet rest k = none) from rfl, recordGet_eq_none_iff rest k]
      simp [recordKeys]
      tauto

/-- A generic fold-invariant lemma. -/
theorem inv_foldl {α β : Type} {P : α → Prop} (step : α → β → α)
    (hstep : ∀ acc x, P acc → P (step acc x)) :
    ∀ (l : List β) (acc : α), P acc → P (l.foldl step acc)
  | [], _, h => h
  | x :: xs, acc, h => inv_foldl step hstep xs (step acc x) (hstep acc x h)

/-- Every stored item carries its record key as its slug. -/
def SlugKeyed (m : List (String × WorkItem)) : Prop := ∀ p ∈ m, p.2.slug = p.1

/-- Every stored item has an empty album (holds before album attachment). -/
def AlbumsEmpty (m : List (String × WorkItem)) : Prop :=
  ∀ p ∈ m, p.2.albumImageUrls = []

/-- Invariant of the pipeline stages before album attachment. -/
def PreInv (m : List (String × WorkItem)) : Prop :=
  (recordKeys m).Nodup ∧ SlugKeyed m ∧ AlbumsEmpty m

theorem slug_of_recordGet {m : List (String × WorkItem)} {f : String}
    {w : WorkItem} (hsk : SlugKeyed m) (h : recordGet m f = some w) :
    w.slug = f :=
  hsk (f, w) (mem_of_recordGet m f w h)

theorem preInv_buildBaseStep (acc : List (String × WorkItem))
    (pm : String × WorkMeta) (h : PreInv acc) : PreInv (buildBaseStep acc pm) := by
  unfold buildBaseStep
  rcases hfm : matchFolder pm.1 with _ | folder <;> simp only [hfm]
  · exact h
  · exact ⟨keysNodup_recordSet acc folder _ h.1,
      forall_recordSet acc folder _ h.2.1 rfl,
      forall_recordSet acc folder _ h.2.2 rfl⟩

theorem preInv_attachMainStep (acc : List (String × WorkItem))
    (pu : String × String) (h : PreInv acc) : PreInv (attachMainStep acc pu) := by
  unfold attachMainStep
  rcases hfm : matchFolder pu.1 with _ | folder <;> simp only [hfm]
  · exact h
  · rcases hg : recordGet acc folder with _ | w <;> simp only [hg]
    · exact ⟨keysNodup_recordSet acc folder _ h.1,
        forall_recordSet acc folder _ h.2.1 rfl,
        forall_recordSet acc folder _ h.2.2 rfl⟩
    · refine ⟨keysNodup_recordSet acc folder _ h.1,
        forall_recordSet acc folder _ h.2.1 ?_,
        forall_recordSet acc folder _ h.2.2 ?_⟩
      · exact slug_of_recordGet (m := acc) (f := folder) (w := w) h.2.1 hg
      · exact h.2.2 (folder, w) (mem_of_recordGet acc folder w hg)

theorem preInv_attachMain2Step (acc : List (String × WorkItem))
    (pu : String × String) (h : PreInv acc) : PreInv (attachMain2Step acc pu) := by
  unfold attachMain2Step
  rcases hfm : matchFolder pu.1 with _ | folder <;> simp only [hfm]
  · exact h
  · rcases hg : recordGet acc folder with _ | w <;> simp only [hg]
    · exact ⟨keysNodup_recordSet acc folder _ h.1,
        forall_recordSet acc folder _ h.2.1 rfl,
        forall_recordSet acc folder _ h.2.2 rfl⟩
    · refine ⟨keysNodup_recordSet acc folder _ h.1,
        forall_recordSet acc folder _ h.2.1 ?_,
        forall_recordSet acc folder _ h.2.2 ?_⟩
      · exact slug_of_recordGet (m := acc) (f := folder) (w := w) h.2.1 hg
      · exact h.2.2 (folder, w) (mem_of_recordGet acc folder w hg)

theorem preInv_worksBeforeAlbums (inp : GlobInputs) :
    PreInv (worksBeforeAlbums inp) := by
  unfold worksBeforeAlbums attachMain2 attachMain buildBase
  refine inv_foldl attachMain2Step preInv_attachMain2Step _ _ ?_
  refine inv_foldl attachMainStep preInv_attachMainStep _ _ ?_
  refine inv_foldl buildBaseStep preInv_buildBaseStep _ _ ?_
  exact ⟨List.nodup_nil, fun p hp => absurd hp (List.not_mem_nil p),
    fun p hp => absurd hp (List.not_mem_nil p)⟩

/-- Invariant of the merged record after album attachment. -/
def MergedInv (m : List (String × WorkItem)) : Prop :=
  (recordKeys m).Nodup ∧ SlugKeyed m

theorem albumResult_slug (existing : Option WorkItem) (folder : String)
    (urls : List String) (hex : ∀ w, existing = some w → w.slug = folder) :
    (albumResult existing folder urls).slug = folder := by
  unfold albumResult
  rcases existing with _ | w
  · rfl
  · have hw : w.slug = folder := hex w rfl
    by_cases hc : (¬ truthyOptStr w.mainImageUrl = true ∧
        0 < ((sortByCmp albumCmp urls).map stripTag).length)
    · simp only [if_pos hc]
      exact hw
    · simp only [if_neg hc]
      exact hw

theorem mergedInv_attachAlbumEntry (acc : List (String × WorkItem))
    (f : String) (urls : List String) (h : MergedInv acc) :
    MergedInv (attachAlbumEntry acc f urls) := by
  unfold attachAlbumEntry
  refine ⟨keysNodup_recordSet acc f _ h.1, forall_recordSet acc f _ h.2 ?_⟩
  exact albumResult_slug _ f urls (fun w hw => slug_of_recordGet h.2 hw)

theorem mergedInv_attachAlbums (acc : List (String × WorkItem))
    (albums : List (String × List String)) (h : MergedInv acc) :
    MergedInv (attachAlbums acc albums) := by
  unfold attachAlbums
  exact inv_foldl _ (fun acc fa h => mergedInv_attachAlbumEntry acc fa.1 fa.2 h)
    albums acc h

theorem keysNodup_collectAlbums (am : List (String × String)) :
    (recordKeys (collectAlbums am)).Nodup := by
  unfold collectAlbums
  refine inv_foldl (P := fun m => (recordKeys m).Nodup) collectAlbumsStep
    ?_ am [] List.nodup_nil
  intro acc pu h
  unfold collectAlbumsStep
  rcases hfm : matchFolderFile pu.1 with _ | ff <;> simp only [hfm]
  · exact h
  · exact keysNodup_recordSet acc ff.1 _ h

theorem recordGet_attachAlbumEntry_self (acc : List (String × WorkItem))
    (f : String) (urls : List String) :
    recordGet (attachAlbumEntry acc f urls) f =
      some (albumResult (recordGet acc f) f urls) := by
  unfold attachAlbumEntry
  exact recordGet_set_self acc f _

theorem recordGet_attachAlbumEntry_other (acc : List (String × WorkItem))
    (f g : String) (urls : List String) (h : g ≠ f) :
    recordGet (attachAlbumEntry acc f urls) g = recordGet acc g := by
  unfold attachAlbumEntry
  exact recordGet_set_other acc f g _ h

theorem recordGet_attachAlbums_not_mem :
    ∀ (albums : List (String × List String)) (acc : List (String × WorkItem))
      (f : String), f ∉ recordKeys albums →
      recordGet (attachAlbums acc albums) f = recordGet acc f
  | [], acc, f, _ => rfl
  | q :: rest, acc, f, h => by
    have hq : f ≠ q.1 := by
      intro hc
      exact h (by simp [recordKeys, hc])
    have hr : f ∉ recordKeys rest := by
      intro hc
      exact h (by simp [recordKeys] at hc ⊢; tauto)
    unfold attachAlbums
    simp only [List.foldl_cons]
    rw [show (List.foldl (fun acc fa => attachAlbumEntry acc fa.1 fa.2)
      (attachAlbumEntry acc q.1 q.2) rest) =
      attachAlbums (attachAlbumEntry acc q.1 q.2) rest from rfl]
    rw [recordGet_attachAlbums_not_mem rest _ f hr]
    exact recordGet_attachAlbumEntry_other acc q.1 f q.2 hq

theorem recordGet_attachAlbums_mem :
    ∀ (albums : List (String × List String)) (acc : List (String × WorkItem))
      (f : String) (urls : List String), (recordKeys albums).Nodup →
      (f, urls) ∈ albums →
      recordGet (attachAlbums acc albums) f =
        some (albumResult (recordGet acc f) f urls)
  | [], _, _, _, _, hm => absurd hm (List.not_mem_nil _)
  | q :: rest, acc, f, urls, hnd, hm => by
    simp only [recordKeys, List.map_cons, List.nodup_cons] at hnd
    unfold attachAlbums
    simp only [List.foldl_cons]
    rw [show (List.foldl (fun acc fa => attachAlbumEntry acc fa.1 fa.2)
      (attachAlbumEntry acc q.1 q.2) rest) =
      attachAlbums (attachAlbumEntry acc q.1 q.2) rest from rfl]
    rcases List.mem_cons.mp hm with he | hm2
    · have hf : q.1 = f := by rw [← he]
      have hfr : f ∉ recordKeys rest := hf ▸ hnd.1
      rw [recordGet_attachAlbums_not_mem rest _ f hfr]
      have hu : q.2 = urls := by rw [← he]
      rw [← hf, ← hu]
      exact recordGet_attachAlbumEntry_self acc q.1 q.2
    · have hfr : f ∈ recordKeys rest := by
        simp only [recordKeys, List.mem_map]
        exact ⟨(f, urls), hm2, rfl⟩
      have hq : f ≠ q.1 := fun hc => hnd.1 (hc ▸ hfr)
      rw [recordGet_attachAlbums_mem rest _ f urls hnd.2 hm2,
        recordGet_attachAlbumEntry_other acc q.1 f q.2 hq]

/-! ## Helper facts about buildWorks membership -/

theorem mem_buildWorks (inp : GlobInputs) (w : WorkItem) :
    w ∈ buildWorks inp ↔
      w ∈ recordValues (attachAlbums (worksBeforeAlbums inp)
        (collectAlbums inp.albumImageModules)) ∧ keepItem w = true := by
  unfold buildWorks
  rw [mem_sortByCmp, List.mem_filter]

theorem recordGet_self_of_mem_values {m : List (String × WorkItem)}
    (hinv : MergedInv m) {w : WorkItem} (hw : w ∈ recordValues m) :
    recordGet m w.slug = some w := by
  rcases (mem_recordValues m w).mp hw with ⟨k, hk⟩
  have hs : w.slug = k := hinv.2 (k, w) hk
  rw [hs]
  exact recordGet_of_mem m k w hinv.1 hk

theorem mergedInv_merged (inp : GlobInputs) :
    MergedInv (attachAlbums (worksBeforeAlbums inp)
      (collectAlbums inp.albumImageModules)) := by
  have h := preInv_worksBeforeAlbums inp
  exact mergedInv_attachAlbums _ _ ⟨h.1, h.2.1⟩

/-! ## Claim C2: retention filter -/

/-- C2: every `WorkItem` in the list returned by `buildWorks` has a
non-empty name, a primary image, or at least one album image, and an
item with none of these never appears in the returned list. -/
theorem buildWorks_retention (inp : GlobInputs) :
    (∀ w ∈ buildWorks inp,
      w.meta.nom ≠ "" ∨ w.mainImageUrl.isSome = true ∨ w.albumImageUrls ≠ []) ∧
    (∀ w : WorkItem, w.meta.nom = "" → w.mainImageUrl = none →
      w.albumImageUrls = [] → w ∉ buildWorks inp) := by
  constructor
  · intro w hw
    have hk : keepItem w = true := ((mem_buildWorks inp w).mp hw).2
    simp only [keepItem, truthyStr, truthyOptStr, Bool.or_eq_true,
      decide_eq_true_eq] at hk
    rcases hk with (h | h) | h
    · exact Or.inl (by simpa using h)
    · rcases hm : w.mainImageUrl with _ | s
      · rw [hm] at h; simp at h
      · exact Or.inr (Or.inl (by simp [hm]))
    · exact Or.inr (Or.inr (List.ne_nil_of_length_pos h))
  · intro w h1 h2 h3 hw
    have hk : keepItem w = true := ((mem_buildWorks inp w).mp hw).2
    simp [keepItem, truthyStr, truthyOptStr, h1, h2, h3] at hk

/-- Concrete input for the C2 witness: one folder with JSON metadata. -/
def inpC2 : GlobInputs :=
  { jsonModules := [("/pages/a/x.json", { nom := "n" })],
    mainImageModules := [], main2ImageModules := [], albumImageModules := [] }

/-- The single item `buildWorks` produces on `inpC2`. -/
def wC2 : WorkItem :=
  { slug := "a", folderPath := "/pages/a", meta := { nom := "n" },
    mainImageUrl := none, main2ImageUrl := none, albumImageUrls := [] }

/-- Witness for C2 at a concrete input. -/
theorem buildWorks_retention_witness :
    wC2.meta.nom ≠ "" ∨ wC2.mainImageUrl.isSome = true ∨
      wC2.albumImageUrls ≠ [] :=
  (buildWorks_retention inpC2).1 wC2 (by decide)

/-! ## Claim C1: ordering of buildWorks -/

/-- Input refuting the claim that unknown-year items sort last: a
non-priority undated item named before a non-priority 2020 item. -/
def cexC1 : GlobInputs :=
  { jsonModules := [("/pages/noyr/a.json", { nom := "aaa" }),
      ("/pages/yr/a.json", { nom := "zzz", year := some (.num 2020) })],
    mainImageModules := [], main2ImageModules := [], albumImageModules := [] }

/-- C1 counterexample: on `cexC1` the undated item sorts first, not last
(the comparator falls back to name comparison whenever either year is
unknown, so unknown-year items do not sort last). -/
theorem buildWorks_order_cex :
    (buildWorks cexC1).map (fun w => (w.slug, yearNum w.meta)) =
      [("noyr", none), ("yr", some 2020)] := by decide

/-- C1 amended: the `buildWorks` output is ordered by the item comparator
between consecutive items (priority slugs first in list order; descending
year only between two items whose years are both known; any pair with an
unknown year falls back to case-insensitive name order), and the priority
rank is globally monotone, so priority items still come first in priority
order. -/
theorem buildWorks_order (inp : GlobInputs) :
    (buildWorks inp).Chain' (fun a b => itemCmp a b ≤ 0) ∧
      (buildWorks inp).Pairwise (fun a b => priRank a ≤ priRank b) := by
  have hc : (buildWorks inp).Chain' (fun a b => itemCmp a b ≤ 0) := by
    unfold buildWorks
    exact chain'_sortByCmp itemCmp itemCmp_sign _
  refine ⟨hc, ?_⟩
  have hc2 : (buildWorks inp).Chain' (fun a b => priRank a ≤ priRank b) :=
    hc.imp (fun _ _ h => itemCmp_rank_mono h)
  haveI : IsTrans WorkItem (fun a b => priRank a ≤ priRank b) :=
    ⟨fun _ _ _ h1 h2 => h1.trans h2⟩
  exact List.chain'_iff_pairwise.mp hc2

/-! ## Claim C3: primary image fallback from the album -/

/-- Input refuting the unconditional fallback claim: a folder discovered
only through a non-main album image. -/
def cexC3 : GlobInputs :=
  { jsonModules := [], mainImageModules := [], main2ImageModules := [],
    albumImageModules := [("/pages/foo/photo.jpg", "u1")] }

/-- C3 counterexample: the folder `foo` has one album image and no
`main.*` file, yet the produced item has no primary image, because the
fallback only runs for folders whose record entry already existed. -/
theorem buildWorks_album_primary_cex :
    buildWorks cexC3 =
      [{ slug := "foo", folderPath := "/pages/foo", meta := { nom := "foo" },
         mainImageUrl := none, main2ImageUrl := none,
         albumImageUrls := ["u1"] }] := by decide

/-- C3 amended: for a folder whose entry existed before album attachment
(from JSON metadata or a main/main2 image) without a truthy primary
image, attaching a nonempty album sets the primary image to the first
sorted album image; a folder discovered only through its album images
gets no primary image. -/
theorem buildWorks_album_primary (inp : GlobInputs) (w : WorkItem)
    (hw : w ∈ buildWorks inp) (halb : w.albumImageUrls ≠ [])
    (v : WorkItem) (hv : recordGet (worksBeforeAlbums inp) w.slug = some v)
    (hmain : truthyOptStr v.mainImageUrl = false) :
    w.mainImageUrl = w.albumImageUrls.head? := by
  have hmem : w ∈ recordValues (attachAlbums (worksBeforeAlbums inp)
      (collectAlbums inp.albumImageModules)) := ((mem_buildWorks inp w).mp hw).1
  have hself : recordGet (attachAlbums (worksBeforeAlbums inp)
      (collectAlbums inp.albumImageModules)) w.slug = some w :=
    recordGet_self_of_mem_values (mergedInv_merged inp) hmem
  rcases ha : recordGet (collectAlbums inp.albumImageModules) w.slug with _ | urls
  · exfalso
    have hnm : w.slug ∉ recordKeys (collectAlbums inp.albumImageModules) :=
      (recordGet_eq_none_iff _ _).mp ha
    rw [recordGet_attachAlbums_not_mem _ _ _ hnm, hv] at hself
    have hwv : v = w := by injection hself
    have hpre := preInv_worksBeforeAlbums inp
    have hae : v.albumImageUrls = [] :=
      hpre.2.2 (w.slug, v) (mem_of_recordGet _ _ _ hv)
    exact halb (hwv ▸ hae)
  · have hmem2 : (w.slug, urls) ∈ collectAlbums inp.albumImageModules :=
      mem_of_recordGet _ _ _ ha
    rw [recordGet_attachAlbums_mem _ _ _ _ (keysNodup_collectAlbums _) hmem2,
      hv] at hself
    have hwr : albumResult (some v) w.slug urls = w := by injection hself
    simp only [albumResult] at hwr
    by_cases hc : (¬ truthyOptStr v.mainImageUrl = true ∧
        0 < ((sortByCmp albumCmp urls).map stripTag).length)
    · rw [if_pos hc] at hwr
      rw [← hwr]
    · exfalso
      rw [if_neg hc] at hwr
      apply hc
      refine ⟨by simp [hmain], ?_⟩
      have halb2 : ((sortByCmp albumCmp urls).map stripTag) ≠ [] := by
        intro hz
        apply halb
        rw [← hwr]
        exact hz
      exact List.length_pos.mpr halb2

/-- Concrete input for the C3 witness: a folder with JSON metadata and
one non-main album image. -/
def inpC3 : GlobInputs :=
  { jsonModules := [("/pages/a/m.json", { nom := "x" })],
    mainImageModules := [], main2ImageModules := [],
    albumImageModules := [("/pages/a/p.jpg", "u")] }

/-- The item `buildWorks` produces on `inpC3`. -/
def wC3 : WorkItem :=
  { slug := "a", folderPath := "/pages/a", meta := { nom := "x" },
    mainImageUrl := some "u", main2ImageUrl := none,
    albumImageUrls := ["u"] }

/-- The pre-album entry of folder `a` in `inpC3`. -/
def vC3 : WorkItem :=
  { slug := "a", folderPath := "/pages/a", meta := { nom := "x" },
    mainImageUrl := none, main2ImageUrl := none, albumImageUrls := [] }

/-- Witness for the amended C3 at a concrete input. -/
theorem buildWorks_album_primary_witness :
    wC3.mainImageUrl = wC3.albumImageUrls.head? :=
  buildWorks_album_primary inpC3 wC3 (by decide) (by decide) vC3
    (by decide) (by decide)

/-! ## Claim C5: album ordering -/

/-- C5: the album sort puts every `main.*`-tagged entry before every
other entry and orders entries of equal main-rank by (case-insensitive)
locale order of their file-name tags; sorting neither adds nor removes
entries. -/
theorem albumSort_order (l : List String) :
    (sortByCmp albumCmp l).Pairwise albumRel ∧
      (∀ s : String, s ∈ sortByCmp albumCmp l ↔ s ∈ l) := by
  constructor
  · have hc := chain'_sortByCmp albumCmp albumCmp_sign l
    have hc2 : (sortByCmp albumCmp l).Chain' albumRel :=
      hc.imp (fun _ _ h => albumCmp_le_albumRel h)
    haveI : IsTrans String albumRel := ⟨fun _ _ _ => albumRel_trans⟩
    exact List.chain'_iff_pairwise.mp hc2
  · exact mem_sortByCmp albumCmp l

/-! ## Claim C9: timeline point coverage -/

/-- C9: the timeline has a point for (y, m) exactly when m is one of the
12 month slots and some work is dated to year y — so every year with a
dated work gets all 12 months, months without works included, and no
other year gets any point. -/
theorem timelinePoints_coverage (works : List WorkItem) (y : Int) (m : Nat) :
    (∃ p ∈ timelinePoints works, p.year = y ∧ p.month = m) ↔
      (m < 12 ∧ ∃ w ∈ works, workYear w = some y) := by
  simp only [timelinePoints]
  constructor
  · rintro ⟨p, hp, hy, hm⟩
    rw [mem_sortByCmp, List.mem_flatMap] at hp
    obtain ⟨y', hy', hp2⟩ := hp
    rw [List.mem_map] at hp2
    obtain ⟨m', hm', he⟩ := hp2
    have hy2 : p.year = y' := by rw [← he]
    have hm2 : p.month = m' := by rw [← he]
    refine ⟨by rw [← hm, hm2]; exact List.mem_range.mp hm', ?_⟩
    unfold timelineYears at hy'
    rw [mem_sortByCmp, List.mem_dedup, List.mem_filterMap] at hy'
    obtain ⟨w, hw, hwy⟩ := hy'
    exact ⟨w, hw, by rw [← hy, hy2]; exact hwy⟩
  · rintro ⟨hm, w, hw, hwy⟩
    refine ⟨⟨y, m, timelineBucketWorks works y m, y * 12 + (m : Int)⟩, ?_, rfl, rfl⟩
    rw [mem_sortByCmp, List.mem_flatMap]
    refine ⟨y, ?_, ?_⟩
    · unfold timelineYears
      rw [mem_sortByCmp, List.mem_dedup, List.mem_filterMap]
      exact ⟨w, hw, hwy⟩
    · rw [List.mem_map]
      exact ⟨m, List.mem_range.mpr hm, rfl⟩

/-! ## Claim C10: monthToIndex safety -/

/-- C10: a numeric month is clamped to the in-range bucket index
min 11 (max 0 (m-1)), so it never produces an out-of-range bucket;
unrecognized month strings yield `none` rather than failing, and every
recognized string maps into the range 0..11. -/
theorem monthToIndex_safe :
    (∀ n : Int, monthToIndex (some (.num n)) = some (min 11 (max 0 (n - 1))) ∧
      0 ≤ min 11 (max 0 (n - 1)) ∧ min 11 (max 0 (n - 1)) ≤ 11) ∧
    (∀ s : String, jsToLower (jsTrim s) ∉ recordKeys monthNameTable →
      monthToIndex (some (.str s)) = none) ∧
    (∀ s : String, ∀ i : Int, monthToIndex (some (.str s)) = some i →
      0 ≤ i ∧ i ≤ 11) := by
  refine ⟨fun n => ⟨rfl, by omega, by omega⟩, fun s hs => ?_, fun s i hi => ?_⟩
  · unfold monthToIndex
    exact (recordGet_eq_none_iff _ _).mpr hs
  · unfold monthToIndex at hi
    have hmem := mem_of_recordGet _ _ _ hi
    have hall : ∀ p ∈ monthNameTable, 0 ≤ p.2 ∧ p.2 ≤ 11 := by decide
    exact hall _ hmem

/-- Witness for C10: an out-of-range numeric month clamps to 11, and an
unrecognized string yields none. -/
theorem monthToIndex_safe_witness :
    monthToIndex (some (.num 25)) = some (min 11 (max 0 (25 - 1))) ∧
      monthToIndex (some (.str "notamonth")) = none :=
  ⟨(monthToIndex_safe.1 25).1, monthToIndex_safe.2.1 "notamonth" (by decide)⟩

/-! ## Claim C4: month bucketing of unknown months -/

theorem pushAt_length : ∀ (bs : List (List WorkItem)) (i : Nat) (w : WorkItem),
    (pushAt bs i w).length = bs.length
  | [], _, _ => rfl
  | _ :: ls, 0, w => by simp [pushAt]
  | l :: ls, i + 1, w => by simp [pushAt, pushAt_length ls i w]

theorem pushAt_getD_self : ∀ (bs : List (List WorkItem)) (i : Nat) (w : WorkItem),
    i < bs.length → (pushAt bs i w).getD i [] = bs.getD i [] ++ [w]
  | [], i, w, h => by simp at h
  | l :: ls, 0, w, _ => by simp [pushAt]
  | l :: ls, i + 1, w, h => by
    simp only [pushAt, List.getD_cons_succ]
    exact pushAt_getD_self ls i w (by simpa using h)

theorem pushAt_getD_other : ∀ (bs : List (List WorkItem)) (i j : Nat)
    (w : WorkItem), j ≠ i → (pushAt bs i w).getD j [] = bs.getD j []
  | [], _, _, _, _ => rfl
  | l :: ls, 0, j, w, h => by
    rcases j with _ | j
    · exact absurd rfl h
    · simp [pushAt]
  | l :: ls, i + 1, j, w, h => by
    rcases j with _ | j
    · simp [pushAt]
    · simp only [pushAt, List.getD_cons_succ]
      exact pushAt_getD_other ls i j w (fun hc => h (by omega))

theorem mem_pushAt_getD {v : WorkItem} :
    ∀ (bs : List (List WorkItem)) (i j : Nat) (w : WorkItem),
      v ∈ bs.getD j [] → v ∈ (pushAt bs i w).getD j []
  | bs, i, j, w, hv => by
    by_cases h : j = i
    · subst h
      by_cases hlt : j < bs.length
      · rw [pushAt_getD_self bs j w hlt]
        exact List.mem_append_left _ hv
      · have : pushAt bs j w = bs := by
          clear hv
          induction bs generalizing j with
          | nil => rfl
          | cons l ls ih =>
            rcases j with _ | j
            · simp at hlt
            · simp only [pushAt]
              rw [ih j (by simpa using hlt)]
        rw [this]
        exact hv
    · rw [pushAt_getD_other bs i j w h]
      exact hv

theorem spreadFold_length (n : Nat) :
    ∀ (pairs : List (Nat × WorkItem)) (bs : List (List WorkItem)),
      (pairs.foldl (fun acc iw => pushAt acc (calendarTarget iw.1 n) iw.2)
        bs).length = bs.length
  | [], _ => rfl
  | q :: rest, bs => by
    simp only [List.foldl_cons]
    rw [spreadFold_length n rest _, pushAt_length]

theorem spreadFold_mono {n : Nat} {v : WorkItem} :
    ∀ (pairs : List (Nat × WorkItem)) (bs : List (List WorkItem)) (j : Nat),
      v ∈ bs.getD j [] →
      v ∈ (pairs.foldl (fun acc iw => pushAt acc (calendarTarget iw.1 n) iw.2)
        bs).getD j []
  | [], _, _, hv => hv
  | q :: rest, bs, j, hv => by
    simp only [List.foldl_cons]
    exact spreadFold_mono rest _ j (mem_pushAt_getD bs _ j q.2 hv)

theorem spreadFold_mem {n : Nat} :
    ∀ (pairs : List (Nat × WorkItem)) (bs : List (List WorkItem)),
      (∀ q ∈ pairs, calendarTarget q.1 n < bs.length) →
      ∀ q ∈ pairs,
        q.2 ∈ (pairs.foldl (fun acc iw => pushAt acc (calendarTarget iw.1 n)
          iw.2) bs).getD (calendarTarget q.1 n) []
  | [], _, _, q, hq => absurd hq (List.not_mem_nil q)
  | q' :: rest, bs, hb, q, hq => by
    simp only [List.foldl_cons]
    rcases List.mem_cons.mp hq with he | hm
    · subst he
      apply spreadFold_mono rest _ _
      rw [pushAt_getD_self bs _ q.2 (hb q (by simp))]
      exact List.mem_append_right _ (List.mem_singleton.mpr rfl)
    · exact spreadFold_mem rest _
        (fun r hr => by rw [pushAt_length]; exact hb r (List.mem_cons_of_mem _ hr))
        q hm

theorem log2Fuel_lt : ∀ (fuel n c : Nat), 0 < c → n < 2 ^ c →
    log2Fuel fuel n < c
  | 0, _, c, hc, _ => by simpa [log2Fuel] using hc
  | fuel + 1, n, c, hc, hn => by
    unfold log2Fuel
    by_cases h1 : n ≤ 1
    · simpa [h1] using hc
    · simp only [if_neg h1]
      rcases c with _ | c
      · exact absurd hc (by omega)
      · have hp : 2 ^ (c + 1) = 2 * 2 ^ c := by rw [pow_succ]; ring
        have hc2 : 0 < c := by
          by_contra hc0
          have hz : c = 0 := by omega
          subst hz
          simp at hp
          omega
        have hrec := log2Fuel_lt fuel (n / 2) c hc2 (by omega)
        omega

theorem natLog2_lt {n c : Nat} (hc : 0 < c) (hn : n < 2 ^ c) :
    natLog2 n < c := log2Fuel_lt n n c hc hn

theorem rneDiv_le (N d : Nat) : 2 * d * rneDiv N d ≤ 2 * N + d := by
  have hmod := Nat.div_add_mod N d
  rcases Nat.eq_zero_or_pos d with hd | hd
  · subst hd
    simp [rneDiv]
  · have hr : N % d < d := Nat.mod_lt _ hd
    simp only [rneDiv]
    split_ifs with h1 h2 h3
    · have he : 2 * d * (N / d) = 2 * (d * (N / d)) := by ring
      omega
    · have he : 2 * d * (N / d + 1) = 2 * (d * (N / d)) + 2 * d := by ring
      omega
    · have he : 2 * d * (N / d) = 2 * (d * (N / d)) := by ring
      omega
    · have he : 2 * d * (N / d + 1) = 2 * (d * (N / d)) + 2 * d := by ring
      omega

theorem rneDiv_mul_le {i d s : Nat} (hid : i ≤ d) (hd : 1 ≤ d) :
    rneDiv (i * 2 ^ s) d ≤ 2 ^ s := by
  have h1 := rneDiv_le (i * 2 ^ s) d
  by_contra hc
  push_neg at hc
  have h2 : 2 * d * (2 ^ s + 1) ≤ 2 * d * rneDiv (i * 2 ^ s) d :=
    Nat.mul_le_mul_left _ (by omega)
  have h3 : i * 2 ^ s ≤ d * 2 ^ s := Nat.mul_le_mul_right _ hid
  have h4 : 2 * d * (2 ^ s + 1) = 2 * (d * 2 ^ s) + 2 * d := by ring
  omega

theorem fl64DivAux_fst_le {i d : Nat} (hid : i ≤ d) (hd : 1 ≤ d) :
    (fl64DivAux i d).1 ≤ 2 ^ (fl64DivAux i d).2 := by
  simp only [fl64DivAux]
  exact rneDiv_mul_le hid hd

theorem fl64DivAux_snd_ge (i d : Nat) : 52 ≤ (fl64DivAux i d).2 := by
  simp only [fl64DivAux]
  exact le_min (by omega) (by omega)

theorem calendarRound_lt {m s : Nat} (hm : m ≤ 2 ^ s) (hs : 52 ≤ s) :
    calendarRound (m, s) < 12 := by
  simp only [calendarRound]
  set p2 := 11 * m with hp2
  set t := natLog2 p2 + 1 - 53 with ht
  set m2 := rneDiv p2 (2 ^ t) with hm2
  have hA : 0 < 2 ^ s := pow_pos (by norm_num) s
  have hT : 0 < 2 ^ t := pow_pos (by norm_num) t
  have hp2le : p2 ≤ 11 * 2 ^ s := by
    rw [hp2]
    exact Nat.mul_le_mul_left _ hm
  have hp2lt : p2 < 2 ^ (s + 4) := by
    have h16 : 2 ^ (s + 4) = 16 * 2 ^ s := by rw [pow_add]; ring
    omega
  have hts : t ≤ s := by
    rcases Nat.eq_zero_or_pos p2 with h0 | h0
    · rw [ht, h0]
      simp [natLog2, log2Fuel]
    · have hlog := natLog2_lt (by omega : 0 < s + 4) hp2lt
      rw [ht]
      omega
  have hrd : 2 * 2 ^ t * m2 ≤ 2 * p2 + 2 ^ t := by
    rw [hm2]
    exact rneDiv_le p2 (2 ^ t)
  have hm2le : m2 ≤ 11 * 2 ^ (s - t) := by
    by_contra hc
    push_neg at hc
    have h2 : 2 * 2 ^ t * (11 * 2 ^ (s - t) + 1) ≤ 2 * 2 ^ t * m2 :=
      Nat.mul_le_mul_left _ (by omega)
    have h4 : 2 * 2 ^ t * (11 * 2 ^ (s - t) + 1) =
        22 * (2 ^ t * 2 ^ (s - t)) + 2 * 2 ^ t := by ring
    have h5 : 2 ^ t * 2 ^ (s - t) = 2 ^ s := by
      rw [← pow_add]
      congr 1
      omega
    omega
  have hB : 0 < 2 ^ (s - t) := pow_pos (by norm_num) (s - t)
  rw [Nat.div_lt_iff_lt_mul (pow_pos (by norm_num) (s - t + 1))]
  have h6 : 2 ^ (s - t + 1) = 2 * 2 ^ (s - t) := by rw [pow_succ]; ring
  omega

theorem calendarTarget_lt {i n : Nat} (h : i < n) : calendarTarget i n < 12 := by
  unfold calendarTarget
  by_cases hi : i = 0
  · simp [hi]
  · simp only [if_neg hi]
    have hid : i ≤ max 1 (n - 1) := by
      have hmr := le_max_right 1 (n - 1)
      omega
    have hfst := fl64DivAux_fst_le hid (le_max_left 1 (n - 1))
    have hsnd := fl64DivAux_snd_ge i (max 1 (n - 1))
    have hlt := calendarRound_lt hfst hsnd
    exact hlt

/-- The halfway case the double arithmetic rounds down: with 23
unknown-month works the 15-th lands in slot 7 — the exact value of
11 · 15/22 is 7.5, but the binary64 product is just below 7.5, matching
the program. -/
theorem calendarTarget_halfway_down : calendarTarget 15 23 = 7 := by decide

/-- A halfway case the doubles represent exactly: 11/22 is exactly 0.5,
the product exactly 5.5, and `Math.round` sends it up to slot 6. -/
theorem calendarTarget_halfway_up : calendarTarget 11 23 = 6 := by decide

theorem calendarFill_buckets_length (items : List WorkItem) :
    (calendarFill items).1.length = 12 := by
  unfold calendarFill
  refine inv_foldl (P := fun acc : List (List WorkItem) × List WorkItem =>
    acc.1.length = 12) _ ?_ items (List.replicate 12 [], []) (by simp)
  intro acc w h
  rcases hm : monthToIndex w.meta.month with _ | idx <;> simp only [hm]
  · exact h
  · rw [pushAt_length]
    exact h

theorem mem_enumFrom_bound {α : Type} :
    ∀ (l : List α) (k : Nat) (q : Nat × α), q ∈ List.enumFrom k l →
      q.1 < k + l.length
  | [], _, _, hq => absurd hq (List.not_mem_nil _)
  | x :: xs, k, q, hq => by
    rw [List.enumFrom_cons] at hq
    rcases List.mem_cons.mp hq with he | hm
    · rw [he]
      simp
    · have := mem_enumFrom_bound xs (k + 1) q hm
      simp only [List.length_cons]
      omega

theorem enum_fst_lt {α : Type} (l : List α) (q : Nat × α) (hq : q ∈ l.enum) :
    q.1 < l.length := by
  have := mem_enumFrom_bound l 0 q (by simpa [List.enum] using hq)
  omega

/-- Works of `cexC4`: two works of 2020 with no month. -/
def cexC4 : List WorkItem :=
  [{ slug := "w1", folderPath := "/pages/w1",
     meta := { nom := "w1", year := some (.num 2020) } },
   { slug := "w2", folderPath := "/pages/w2",
     meta := { nom := "w2", year := some (.num 2020) } }]

/-- C4 counterexample: in the timeline view, both 2020 works without a
month value land in slot 0 (January); they are not redistributed over the
12 slots. -/
theorem timeline_month_distribution_cex :
    (List.range 12).map
        (fun m => (timelineBucketWorks cexC4 2020 m).map (fun w => w.slug)) =
      [["w1", "w2"], [], [], [], [], [], [], [], [], [], [], []] := by decide

/-- C4 amended: in the timeline view every work without a recognizable
month is assigned to slot 0 (January); only the calendar view spreads the
unknown-month works of a year over the 12 slots by index, placing the
i-th of n such works in the slot `Math.round((i / max(1, n-1)) * 11)` as
the program computes it in IEEE binary64 arithmetic (`calendarTarget`). -/
theorem calendar_timeline_month_distribution :
    (∀ w : WorkItem, monthToIndex w.meta.month = none →
      timelineMonthIndex w = 0) ∧
    (∀ items : List WorkItem, ∀ q ∈ (calendarFill items).2.enum,
      q.2 ∈ (calendarSpread (calendarFill items).1
        (calendarFill items).2).getD
          (calendarTarget q.1 (calendarFill items).2.length) []) := by
  constructor
  · intro w h
    unfold timelineMonthIndex
    rw [h]
    rfl
  · intro items q hq
    unfold calendarSpread
    refine spreadFold_mem _ _ ?_ q hq
    intro q' hq'
    rw [calendarFill_buckets_length]
    exact calendarTarget_lt (enum_fst_lt _ q' hq')

/-- Works for the C4 witness: two undated-month works of 2021. -/
def witC4 : List WorkItem :=
  [{ slug := "v1", folderPath := "/pages/v1",
     meta := { nom := "v1", year := some (.num 2021) } },
   { slug := "v2", folderPath := "/pages/v2",
     meta := { nom := "v2", year := some (.num 2021) } }]

/-- The first work of `witC4`. -/
def witV1 : WorkItem :=
  { slug := "v1", folderPath := "/pages/v1",
    meta := { nom := "v1", year := some (.num 2021) } }

/-- Witness for the amended C4: on `witC4` the first unknown-month work
goes to calendar slot 0 and the timeline sends unknown months to 0. -/
theorem calendar_timeline_month_distribution_witness :
    timelineMonthIndex witV1 = 0 ∧
      (0, witV1) ∈ (calendarFill witC4).2.enum ∧
      witV1 ∈
        (calendarSpread (calendarFill witC4).1 (calendarFill witC4).2).getD
          (calendarTarget 0 (calendarFill witC4).2.length) [] :=
  ⟨calendar_timeline_month_distribution.1 witV1 (by decide), by decide,
    calendar_timeline_month_distribution.2 witC4 (0, witV1) (by decide)⟩

/-! ## Claim C6: carousel index range -/

/-- Invariant of the drawer state: the index is nonnegative and, whenever
an item is selected, the index is below its album length or equals 0. -/
def CarouselInv (works : List WorkItem) (st : CarouselState) : Prop :=
  0 ≤ st.currentImageIndex ∧
    ∀ w, selectedWork works st.selectedSlug = some w →
      (st.currentImageIndex < (w.albumImageUrls.length : Int) ∨
        st.currentImageIndex = 0)

theorem carouselInv_step (works : List WorkItem) (st : CarouselState)
    (op : CarouselOp) (h : CarouselInv works st) :
    CarouselInv works (carouselStep works st op) := by
  obtain ⟨sel, idx⟩ := st
  obtain ⟨h0, hsel⟩ := h
  rcases op with _ | _ | sl
  · unfold carouselStep
    dsimp only
    rcases hs : selectedWork works sel with _ | w <;> simp only [hs]
    · exact ⟨h0, hsel⟩
    · by_cases hz : w.albumImageUrls.length = 0
      · simp only [if_pos hz]
        exact ⟨h0, hsel⟩
      · simp only [if_neg hz]
        have hzc : ((w.albumImageUrls.length : Int)) ≠ 0 := by exact_mod_cast hz
        refine ⟨Int.emod_nonneg _ hzc, ?_⟩
        intro w' hw'
        dsimp only at hw'
        rw [hs] at hw'
        injection hw' with he
        subst he
        left
        dsimp only
        exact Int.emod_lt_of_pos _ (by omega)
  · unfold carouselStep
    dsimp only
    rcases hs : selectedWork works sel with _ | w <;> simp only [hs]
    · exact ⟨h0, hsel⟩
    · by_cases hz : w.albumImageUrls.length = 0
      · simp only [if_pos hz]
        exact ⟨h0, hsel⟩
      · simp only [if_neg hz]
        have hzc : ((w.albumImageUrls.length : Int)) ≠ 0 := by exact_mod_cast hz
        refine ⟨Int.emod_nonneg _ hzc, ?_⟩
        intro w' hw'
        dsimp only at hw'
        rw [hs] at hw'
        injection hw' with he
        subst he
        left
        dsimp only
        exact Int.emod_lt_of_pos _ (by omega)
  · exact ⟨le_refl 0, fun w _ => Or.inr rfl⟩

theorem carouselInv_run (works : List WorkItem) (ops : List CarouselOp) :
    CarouselInv works (ops.foldl (carouselStep works) carouselInit) := by
  refine inv_foldl (carouselStep works)
    (fun acc op h => carouselInv_step works acc op h) ops carouselInit
    ⟨le_refl 0, fun w hw => ?_⟩
  simp [selectedWork, carouselInit] at hw

/-- C6: after any sequence of drawer operations from the initial state,
the carousel index lies in [0, album length) whenever the selected item
has a nonempty album; next wraps from the last image to 0, previous
wraps from 0 to the last image, and selecting always resets the index to
0. -/
theorem carousel_range (works : List WorkItem) (ops : List CarouselOp) :
    (∀ w : WorkItem,
      selectedWork works
        ((ops.foldl (carouselStep works) carouselInit).selectedSlug) = some w →
      w.albumImageUrls ≠ [] →
      0 ≤ (ops.foldl (carouselStep works) carouselInit).currentImageIndex ∧
        (ops.foldl (carouselStep works) carouselInit).currentImageIndex <
          (w.albumImageUrls.length : Int)) ∧
    (∀ st : CarouselState, ∀ w : WorkItem,
      selectedWork works st.selectedSlug = some w → w.albumImageUrls ≠ [] →
      st.currentImageIndex = (w.albumImageUrls.length : Int) - 1 →
      (carouselStep works st .next).currentImageIndex = 0) ∧
    (∀ st : CarouselState, ∀ w : WorkItem,
      selectedWork works st.selectedSlug = some w → w.albumImageUrls ≠ [] →
      st.currentImageIndex = 0 →
      (carouselStep works st .prev).currentImageIndex =
        (w.albumImageUrls.length : Int) - 1) ∧
    (∀ st : CarouselState, ∀ sl : Option String,
      (carouselStep works st (.select sl)).currentImageIndex = 0) := by
  refine ⟨?_, ?_, ?_, ?_⟩
  · intro w hw hne
    obtain ⟨h0, hsel⟩ := carouselInv_run works ops
    refine ⟨h0, ?_⟩
    rcases hsel w hw with hlt | hz
    · exact hlt
    · rw [hz]
      have : w.albumImageUrls.length ≠ 0 := by
        simpa [List.length_eq_zero] using hne
      exact_mod_cast Nat.pos_of_ne_zero this
  · intro st w hw hne hidx
    obtain ⟨sel, idx⟩ := st
    try dsimp only at hw hidx
    unfold carouselStep
    dsimp only
    rw [hw]
    have hz : w.albumImageUrls.length ≠ 0 := by
      simpa [List.length_eq_zero] using hne
    simp only [if_neg hz]
    try dsimp only
    rw [hidx]
    have he : ((w.albumImageUrls.length : Int) - 1 + 1) =
        (w.albumImageUrls.length : Int) := by ring
    rw [he, Int.emod_self]
  · intro st w hw hne hidx
    obtain ⟨sel, idx⟩ := st
    try dsimp only at hw hidx
    unfold carouselStep
    dsimp only
    rw [hw]
    have hz : w.albumImageUrls.length ≠ 0 := by
      simpa [List.length_eq_zero] using hne
    simp only [if_neg hz]
    try dsimp only
    rw [hidx]
    have he : ((0 : Int) - 1 + (w.albumImageUrls.length : Int)) =
        (w.albumImageUrls.length : Int) - 1 := by ring
    rw [he]
    refine Int.emod_eq_of_lt (by omega) (by omega)
  · intro st sl
    rfl

/-- Works for the C6 witness: one item with a two-image album. -/
def witC6 : List WorkItem :=
  [{ slug := "s", folderPath := "/pages/s", meta := { nom := "s" },
     albumImageUrls := ["a", "b"] }]

/-- The item of `witC6`. -/
def witC6w : WorkItem :=
  { slug := "s", folderPath := "/pages/s", meta := { nom := "s" },
    albumImageUrls := ["a", "b"] }

/-- Operations for the C6 witness. -/
def witC6ops : List CarouselOp :=
  [.select (some "s"), .next, .next, .prev]

/-- Witness for C6 at a concrete run. -/
theorem carousel_range_witness :
    0 ≤ (witC6ops.foldl (carouselStep witC6) carouselInit).currentImageIndex ∧
      (witC6ops.foldl (carouselStep witC6) carouselInit).currentImageIndex <
        (witC6w.albumImageUrls.length : Int) :=
  (carousel_range witC6 witC6ops).1 witC6w (by decide) (by decide)

/-! ## Claim C7: geocode cache -/

/-- A network model that always fails. -/
def failNet : String → NetResult := fun _ => .netError

/-- C7 counterexample: with a network that errors, looking up the same
query twice issues two network calls — a failed lookup is not cached, so
the second lookup is not served from the cache. -/
theorem geocode_cache_cex :
    (geocode failNet [] "x").2.2 +
      (geocode failNet (geocode failNet [] "x").2.1 "x").2.2 = 2 := by decide

/-- C7 amended: when a lookup returns a position (cache hit or successful
network response), a second lookup of the same exact query string is
served from the cache with zero network calls and yields the same
position; a failed lookup is not cached and contacts the network again. -/
theorem geocode_cached_after_success (net : String → NetResult)
    (cache : List (String × LatLng)) (q : String) (p : LatLng)
    (h : (geocode net cache q).1 = some p) :
    geocode net (geocode net cache q).2.1 q =
      (some p, (geocode net cache q).2.1, 0) := by
  unfold geocode at h ⊢
  rcases hc : recordGet cache q with _ | pos <;> simp only [hc] at h ⊢
  · rcases hn : net q with _ | _ | data <;> simp only [hn] at h ⊢
    · exact absurd h (by simp)
    · exact absurd h (by simp)
    · rcases data with _ | ⟨d, ds⟩
      · exact absurd h (by simp)
      · have hp : d = p := by injection h
        subst hp
        rw [recordGet_set_self]
  · have hp : pos = p := by injection h
    subst hp
    rfl

/-- A network model that always succeeds with one position. -/
def okNet : String → NetResult := fun _ => .ok [{ lat := 1, lng := 2 }]

/-- Witness for the amended C7 at a concrete query. -/
theorem geocode_cached_after_success_witness :
    geocode okNet (geocode okNet [] "x").2.1 "x" =
      (some { lat := 1, lng := 2 }, (geocode okNet [] "x").2.1, 0) :=
  geocode_cached_after_success okNet [] "x" { lat := 1, lng := 2 } (by decide)

/-! ## Claim C8: silent omission of failed geocodes -/

/-- Whether a network response fails to produce a position (error,
non-OK response, or empty result set). -/
def netFails : NetResult → Bool
  | .ok (_ :: _) => false
  | _ => true

theorem mapStep_invariant (net : String → NetResult) (q : String)
    (hfail : netFails (net q) = true)
    (acc : List (WorkItem × LatLng) × List (String × LatLng) × Nat)
    (w : WorkItem) (h1 : recordGet acc.2.1 q = none)
    (h2 : ∀ p ∈ acc.1, queryOf p.1 ≠ q) :
    recordGet (mapStep net acc w).2.1 q = none ∧
      (∀ p ∈ (mapStep net acc w).1, queryOf p.1 ≠ q) ∧
      (mapStep net acc w).2.2 ≤ acc.2.2 + 1 := by
  unfold mapStep geocode
  rcases hg : recordGet acc.2.1 (queryOf w) with _ | pos <;> simp only [hg]
  · rcases hn : net (queryOf w) with _ | _ | data
    · simp only [hn]
      exact ⟨h1, h2, by omega⟩
    · simp only [hn]
      exact ⟨h1, h2, by omega⟩
    · rcases data with _ | ⟨d, ds⟩ <;> simp only [hn]
      · exact ⟨h1, h2, by omega⟩
      · have hqw : queryOf w ≠ q := by
          intro hc
          rw [hc] at hn
          rw [hn] at hfail
          simp [netFails] at hfail
        refine ⟨?_, ?_, by omega⟩
        · rw [recordGet_set_other _ _ _ _ (fun hc => hqw hc.symm)]
          exact h1
        · intro p hp
          rcases List.mem_append.mp hp with hp2 | hp2
          · exact h2 p hp2
          · have : p = (w, d) := List.mem_singleton.mp hp2
            rw [this]
            exact hqw
  · refine ⟨h1, ?_, by omega⟩
    intro p hp
    rcases List.mem_append.mp hp with hp2 | hp2
    · exact h2 p hp2
    · have hpe : p = (w, pos) := List.mem_singleton.mp hp2
      rw [hpe]
      intro hc
      dsimp only at hc
      rw [hc] at hg
      rw [hg] at h1
      exact Option.noConfusion h1

theorem mapFold_invariant (net : String → NetResult) (q : String)
    (hfail : netFails (net q) = true) :
    ∀ (addrs : List WorkItem)
      (acc : List (WorkItem × LatLng) × List (String × LatLng) × Nat),
      recordGet acc.2.1 q = none → (∀ p ∈ acc.1, queryOf p.1 ≠ q) →
      recordGet (addrs.foldl (mapStep net) acc).2.1 q = none ∧
        (∀ p ∈ (addrs.foldl (mapStep net) acc).1, queryOf p.1 ≠ q) ∧
        (addrs.foldl (mapStep net) acc).2.2 ≤ acc.2.2 + addrs.length
  | [], acc, h1, h2 => by
    simp only [List.foldl_nil, List.length_nil]
    exact ⟨h1, h2, by omega⟩
  | a :: rest, acc, h1, h2 => by
    simp only [List.foldl_cons]
    obtain ⟨g1, g2, g3⟩ := mapStep_invariant net q hfail acc a h1 h2
    obtain ⟨r1, r2, r3⟩ := mapFold_invariant net q hfail rest (mapStep net acc a) g1 g2
    refine ⟨r1, r2, ?_⟩
    simp only [List.length_cons]
    omega

/-- Work used by the C8 counterexample and witness: a city but no year. -/
def cexC8w : WorkItem :=
  { slug := "c", folderPath := "/pages/c",
    meta := { nom := "c", city := some "X" } }

/-- C8 counterexample: a work with a failing geocode and no dated year is
omitted from the map results, but the timeline generates no point holding
it either — so it is not true that all other views still show it. -/
theorem mapView_omission_cex :
    (mapResults failNet [] [cexC8w]).1 = [] ∧
      timelinePoints [cexC8w] = [] ∧
      cexC8w ∈ gridItems [cexC8w] := by decide

/-- C8 amended: a work whose geocoding lookup fails (network error,
non-OK response, or empty result set) is silently omitted from the map
results, each address is attempted at most once per pass (no retry), and
the grid and list views still render every work; timeline membership
depends only on the work's year, not on geocoding. -/
theorem mapView_omits_failed (net : String → NetResult)
    (cache : List (String × LatLng)) (works : List WorkItem) (w : WorkItem)
    (hw : w ∈ works) (hq : queryOf w ≠ "")
    (hmiss : recordGet cache (queryOf w) = none)
    (hfail : netFails (net (queryOf w)) = true) :
    (∀ p ∈ (mapResults net cache works).1, p.1 ≠ w) ∧
      w ∈ gridItems works ∧ w ∈ listItems works ∧
      (mapResults net cache works).2.2 ≤ (mapAddresses works).length := by
  unfold mapResults
  obtain ⟨r1, r2, r3⟩ := mapFold_invariant net (queryOf w) hfail
    (mapAddresses works) ([], cache, 0) hmiss
    (fun p hp => absurd hp (List.not_mem_nil p))
  refine ⟨?_, hw, hw, by simpa using r3⟩
  intro p hp hc
  exact r2 p hp (by rw [hc])

/-- Witness for the amended C8 at a concrete input. -/
theorem mapView_omits_failed_witness :
    cexC8w ∈ gridItems [cexC8w] ∧
      (mapResults failNet [] [cexC8w]).2.2 ≤ (mapAddresses [cexC8w]).length :=
  ⟨(mapView_omits_failed failNet [] [cexC8w] cexC8w (by decide) (by decide)
      (by decide) (by decide)).2.1,
    (mapView_omits_failed failNet [] [cexC8w] cexC8w (by decide) (by decide)
      (by decide) (by decide)).2.2.2⟩

end PauReig
